import Mathlib

/-
  Verification development for the fork-choice tree core of eth2-fork-mon.

  The Go source embedded here:
    - type ProtoArrayNode, type ForkChoiceNode   (pkg/monitor/monitor.go)
    - buildTree, rollProtoArray, compactSingleChildren, computeSummary
      (the fork_choice file of package monitor)
    - computeCurrentSlot, pruneForBrowser        (pkg/monitor/monitor.go)

  Modelling conventions:
    - Go float64 index/weight fields (ParentIndex, Weight, BestDescendant)
      hold small integers in every reachable input; they are modelled as Int.
      The only operations the code performs on them are equality tests and
      the conversion int(*p), both exact on integer-valued floats.
    - Go map[string]T is modelled as an association list with
      last-write-first lookup; the code only ever reads maps via indexing,
      so any lookup-faithful representation is sound.
    - Go slice indexing that can panic is modelled with Option (none = panic),
      and the potentially non-terminating recursions of buildTree and of the
      pruneForBrowser walk are modelled with an explicit fuel parameter
      (none = the Go code would not have returned within that recursion depth;
      a run that returns none for every fuel diverges).
    - wall-clock time (time.Now().Unix()) is passed explicitly as `now`.
-/

set_option maxHeartbeats 1000000

/-- Model of Go struct ProtoArrayNode (monitor.go):
    Slot string; Root string; ParentIndex *float64; Weight float64;
    BestDescendant float64. -/
structure ProtoArrayNode where
  slot : String
  root : String
  parentIndex : Option Int
  weight : Int
  bestDescendant : Int
deriving Repr, DecidableEq, Inhabited

/-- Model of Go struct ForkChoiceNode (monitor.go):
    Children []ForkChoiceNode; Slot string; Root string; Weight float64;
    IsCanonical bool; CountCollapsedBlocks int.
    (The unexported scratch field countOfSubTree, used only by the DOT
    export helper countTree, is omitted.) -/
inductive ForkChoiceNode : Type where
  | mk (children : List ForkChoiceNode) (slot : String) (root : String)
       (weight : Int) (isCanonical : Bool) (countCollapsedBlocks : Nat)

def ForkChoiceNode.children : ForkChoiceNode → List ForkChoiceNode
  | .mk cs _ _ _ _ _ => cs

def ForkChoiceNode.slot : ForkChoiceNode → String
  | .mk _ sl _ _ _ _ => sl

def ForkChoiceNode.root : ForkChoiceNode → String
  | .mk _ _ r _ _ _ => r

def ForkChoiceNode.weight : ForkChoiceNode → Int
  | .mk _ _ _ w _ _ => w

def ForkChoiceNode.isCanonical : ForkChoiceNode → Bool
  | .mk _ _ _ _ cn _ => cn

def ForkChoiceNode.countCollapsedBlocks : ForkChoiceNode → Nat
  | .mk _ _ _ _ _ k => k

/-- The Go zero value ForkChoiceNode\x7b\x7d (nil children, empty strings,
    zero weight, false, zero count). -/
def zeroForkChoiceNode : ForkChoiceNode :=
  .mk [] "" "" 0 false 0

mutual

/-- Number of nodes of a tree (specification-side measure). -/
def treeSize : ForkChoiceNode → Nat
  | .mk cs _ _ _ _ _ => 1 + treeSizeList cs

def treeSizeList : List ForkChoiceNode → Nat
  | [] => 0
  | t :: ts => treeSize t + treeSizeList ts

end

mutual

/-- Sum of all CountCollapsedBlocks values over a tree. -/
def sumCollapsed : ForkChoiceNode → Nat
  | .mk cs _ _ _ _ k => k + sumCollapsedList cs

def sumCollapsedList : List ForkChoiceNode → Nat
  | [] => 0
  | t :: ts => sumCollapsed t + sumCollapsedList ts

end

mutual

/-- Sum, over all nodes of the tree, of the lengths of the children lists. -/
def sumChildCounts : ForkChoiceNode → Nat
  | .mk cs _ _ _ _ _ => cs.length + sumChildCountsList cs

def sumChildCountsList : List ForkChoiceNode → Nat
  | [] => 0
  | t :: ts => sumChildCounts t + sumChildCountsList ts

end

mutual

/-- Go func compactSingleChildren (fork_choice file):

      func compactSingleChildren(node ForkChoiceNode) ForkChoiceNode \x7b
          if len(node.Children) == 1 \x7b
              child := node.Children[0]
              for len(child.Children) == 1 \x7b
                  child = child.Children[0]
                  node.CountCollapsedBlocks += 1
              \x7d
              node.Children[0] = child
          \x7d
          for i, child := range node.Children \x7b
              node.Children[i] = compactSingleChildren(child)
          \x7d
          return node
      \x7d

    The inner while-walk and the subsequent recursive pass over the (single)
    replaced child are fused into collapseAndCompact: in the single-child
    case the second Go loop visits exactly the walk's final node. -/
def compactSingleChildren : ForkChoiceNode → ForkChoiceNode
  | .mk [] sl r w cn k => .mk [] sl r w cn k
  | .mk [c] sl r w cn k =>
    let p := collapseAndCompact c
    .mk [p.1] sl r w cn (k + p.2)
  | .mk (c1 :: c2 :: cs) sl r w cn k =>
    .mk (compactChildren (c1 :: c2 :: cs)) sl r w cn k
termination_by t => 2 * sizeOf t

/-- The Go while-loop of compactSingleChildren: starting at the first child,
    skip successive single-child nodes, counting the skips, then compact the
    node reached.  Returns (compacted final node, number of skipped nodes). -/
def collapseAndCompact : ForkChoiceNode → ForkChoiceNode × Nat
  | .mk [c] sl r w cn k =>
    let p := collapseAndCompact c
    (p.1, p.2 + 1)
  | .mk [] sl r w cn k => (compactSingleChildren (.mk [] sl r w cn k), 0)
  | .mk (c1 :: c2 :: cs) sl r w cn k =>
    (compactSingleChildren (.mk (c1 :: c2 :: cs) sl r w cn k), 0)
termination_by t => 2 * sizeOf t + 1

/-- The second Go loop of compactSingleChildren, for nodes with zero or at
    least two children: compact every child in place. -/
def compactChildren : List ForkChoiceNode → List ForkChoiceNode
  | [] => []
  | t :: ts => compactSingleChildren t :: compactChildren ts
termination_by ts => 2 * sizeOf ts

end

/-- Digit run of Go strconv.Atoi: consume decimal digits, error on any
    other character.  (Int64 overflow of Atoi is not modelled; slot values
    are far below that bound.) -/
def decDigitsAux : List Char → Nat → Option Nat
  | [], acc => some acc
  | c :: cs, acc =>
    if '0' ≤ c ∧ c ≤ '9' then decDigitsAux cs (acc * 10 + (c.toNat - Char.toNat '0'))
    else none

/-- Model of Go strconv.Atoi: optional sign followed by at least one decimal
    digit; anything else is an error (none). -/
def atoi (s : String) : Option Int :=
  match s.toList with
  | [] => none
  | ['+'] => none
  | ['-'] => none
  | '+' :: cs => (decDigitsAux cs 0).map (fun n => (n : Int))
  | '-' :: cs => (decDigitsAux cs 0).map (fun n => -(n : Int))
  | cs => (decDigitsAux cs 0).map (fun n => (n : Int))

/-- Go const epochsToSend = 4 (monitor.go). -/
def epochsToSend : Int := 4

/-- Go func computeCurrentSlot (monitor.go), with time.Now().Unix() passed
    explicitly as `now`; Go integer division truncates toward zero. -/
def computeCurrentSlot (genesisTime secondsPerSlot now : Int) : Int :=
  Int.tdiv (now - genesisTime) secondsPerSlot

/-- The target-slot computation at the head of Go func pruneForBrowser:
    currentEpoch := currentSlot / slotsPerEpoch;
    targetEpoch := currentEpoch - epochsToSend, clamped at 0;
    targetSlot := targetEpoch * slotsPerEpoch. -/
def pruneTargetSlot (genesisTime slotsPerEpoch secondsPerSlot now : Int) : Int :=
  let currentSlot := computeCurrentSlot genesisTime secondsPerSlot now
  let currentEpoch := Int.tdiv currentSlot slotsPerEpoch
  let targetEpoch := currentEpoch - epochsToSend
  let targetEpoch := if targetEpoch < 0 then 0 else targetEpoch
  targetEpoch * slotsPerEpoch

/-- The inner scan of the pruneForBrowser walk: first child marked
    canonical, if any (the Go for-range with break). -/
def findCanonicalChild : List ForkChoiceNode → Option ForkChoiceNode
  | [] => none
  | c :: cs => if c.isCanonical then some c else findCanonicalChild cs

/-- The walk of Go func pruneForBrowser (monitor.go):

      for slot < targetSlot \x7b
          if len(node.Children) == 0 \x7b return node \x7d
          for _, child := range node.Children \x7b
              if child.IsCanonical \x7b
                  node = child
                  slot, err = strconv.Atoi(node.Slot)
                  if err != nil \x7b return node \x7d
                  break
              \x7d
          \x7d
      \x7d
      return node

    When no child is canonical the Go loop body changes nothing and the
    outer condition is re-tested with unchanged state; the model makes that
    step a recursive call with identical arguments, so exhausting any fuel
    (result none for every fuel) is exactly Go non-termination. -/
def pruneLoop : Nat → ForkChoiceNode → Int → Int → Option ForkChoiceNode
  | 0, _, _, _ => none
  | fuel + 1, node, slot, targetSlot =>
    if slot < targetSlot then
      if node.children.length = 0 then some node
      else
        match findCanonicalChild node.children with
        | none => pruneLoop fuel node slot targetSlot
        | some child =>
          match atoi child.slot with
          | none => some child
          | some s => pruneLoop fuel child s targetSlot
    else some node

/-- Go func pruneForBrowser (monitor.go), fuelled; `now` is the wall clock. -/
def pruneForBrowser (fuel : Nat) (node : ForkChoiceNode)
    (genesisTime slotsPerEpoch secondsPerSlot now : Int) : Option ForkChoiceNode :=
  let targetSlot := pruneTargetSlot genesisTime slotsPerEpoch secondsPerSlot now
  match atoi node.slot with
  | none => some node
  | some slot => pruneLoop fuel node slot targetSlot

/-- Association-list model of a Go map: lookup of the most recent write. -/
def mfind {α : Type} : List (String × α) → String → Option α
  | [], _ => none
  | (k, v) :: m, k' => if k = k' then some v else mfind m k'

/-- Association-list model of a Go map write m[k] = v. -/
def mset {α : Type} (m : List (String × α)) (k : String) (v : α) : List (String × α) :=
  (k, v) :: m

/-- Go slice indexing protoArrayData[int(*p)]: panics (none) when the index
    is negative or past the end. -/
def pget (l : List ProtoArrayNode) (i : Int) : Option ProtoArrayNode :=
  if i < 0 then none else l.get? i.toNat

/-- The ForkChoiceNode descriptor built for one entry of the proto array in
    the first loop of Go func rollProtoArray:
    isCanonical := protoNode.BestDescendant == canonicalHeadIndex. -/
def protoToNode (hI : Int) (p : ProtoArrayNode) : ForkChoiceNode :=
  .mk [] p.slot p.root p.weight (p.bestDescendant == hI) 0

/-- One iteration of the first loop of Go func rollProtoArray: register the
    entry in the nodes map and append its root to its parent's children
    list; none models the Go panic when the parent index is out of range. -/
def registerEntry (pad : List ProtoArrayNode) (hI : Int)
    (st : List (String × List String) × List (String × ForkChoiceNode))
    (p : ProtoArrayNode) :
    Option (List (String × List String) × List (String × ForkChoiceNode)) :=
  let node := protoToNode hI p
  match p.parentIndex with
  | none => some (st.1, mset st.2 p.root node)
  | some pi =>
    match pget pad pi with
    | none => none
    | some parent =>
      let children := (mfind st.1 parent.root).getD []
      some (mset st.1 parent.root (children ++ [p.root]), mset st.2 p.root node)

/-- The first loop of Go func rollProtoArray, iterated over the slice. -/
def registerEntries (pad : List ProtoArrayNode) (hI : Int) :
    List (String × List String) × List (String × ForkChoiceNode) →
    List ProtoArrayNode →
    Option (List (String × List String) × List (String × ForkChoiceNode))
  | st, [] => some st
  | st, p :: rest =>
    match registerEntry pad hI st p with
    | none => none
    | some st' => registerEntries pad hI st' rest

/-- Record update keeping every field but the children list. -/
def withChildren : ForkChoiceNode → List ForkChoiceNode → ForkChoiceNode
  | .mk _ sl r w cn k, cs => .mk cs sl r w cn k

/-- child.IsCanonical = true (the write through the pointer in buildTree). -/
def setCanonicalTrue : ForkChoiceNode → ForkChoiceNode
  | .mk cs sl r w _ k => .mk cs sl r w true k

/-- The single-child canonical inference at the end of Go func buildTree:
    if len(node.Children) == 1 and node.IsCanonical and the child is not,
    mark the child canonical. -/
def canonFlip (parentCanonical : Bool) : List ForkChoiceNode → List ForkChoiceNode
  | [c] => if parentCanonical && !c.isCanonical then [setCanonicalTrue c] else [c]
  | cs => cs

/-- The child-building loop of Go func buildTree: for each recorded child
    root, build the subtree from the registered node (Go map indexing of a
    missing root yields the zero value); `build` is the recursive call at
    the remaining depth. -/
def buildChildrenWith (build : ForkChoiceNode → Option ForkChoiceNode)
    (ns : List (String × ForkChoiceNode)) : List String → Option (List ForkChoiceNode)
  | [] => some []
  | r :: rs =>
    match build ((mfind ns r).getD zeroForkChoiceNode) with
    | none => none
    | some t =>
      match buildChildrenWith build ns rs with
      | none => none
      | some ts => some (t :: ts)

/-- Go func buildTree (fork_choice file), fuelled:

      func buildTree(node ForkChoiceNode, nodes map[string]ForkChoiceNode,
                     childrenIndex map[string][]string) ForkChoiceNode \x7b
          children := childrenIndex[node.Root]
          for _, childRoot := range children \x7b
              emptyChild := nodes[childRoot]
              child := buildTree(emptyChild, nodes, childrenIndex)
              node.Children = append(node.Children, child)
          \x7d
          if len(node.Children) == 1 \x7b ... canonical inference ... \x7d
          return node
      \x7d

    none models exhausting the recursion depth: a cyclic children index
    makes the Go recursion diverge. -/
def buildTreeF : Nat → ForkChoiceNode → List (String × ForkChoiceNode) →
    List (String × List String) → Option ForkChoiceNode
  | 0, _, _, _ => none
  | fuel + 1, node, ns, ci =>
    match buildChildrenWith (fun n => buildTreeF fuel n ns ci) ns
        ((mfind ci node.root).getD []) with
    | none => none
    | some built =>
      some (withChildren node (canonFlip node.isCanonical (node.children ++ built)))

/-- Go func rollProtoArray (fork_choice file): register all entries, then
    build the tree from nodes[protoArrayData[0].Root].  none models a Go
    panic (empty array, bad parent index) or divergence (cyclic children
    index): the fuel pad.length + 1 exceeds every recursion depth an
    acyclic children index can produce, as buildTreeF_sized proves for
    well-formed inputs. -/
def rollProtoArray (pad : List ProtoArrayNode) (hI : Int) : Option ForkChoiceNode :=
  match registerEntries pad hI ([], []) pad with
  | none => none
  | some (ci, ns) =>
    match pad with
    | [] => none
    | p0 :: _ =>
      buildTreeF (pad.length + 1) ((mfind ns p0.root).getD zeroForkChoiceNode) ns ci

/-- Go func computeSummary (fork_choice file):

      func computeSummary(protoArrayData []ProtoArrayNode,
                          canonicalHeadIndex float64) ForkChoiceNode \x7b
          blockTree := rollProtoArray(protoArrayData, canonicalHeadIndex)
          return blockTree
          // return compactSingleChildren(blockTree)
      \x7d -/
def computeSummary (pad : List ProtoArrayNode) (hI : Int) : Option ForkChoiceNode :=
  rollProtoArray pad hI

/-- The entry at position i (out-of-range positions give the default, and
    are never relied on). -/
def entryAt (pad : List ProtoArrayNode) (i : Nat) : ProtoArrayNode :=
  pad.getD i default

/-- The block root of the entry at position i. -/
def rootAt (pad : List ProtoArrayNode) (i : Nat) : String :=
  (entryAt pad i).root

/-- ParentIndex of the entry at position j, if any. -/
def parentOf (pad : List ProtoArrayNode) (j : Nat) : Option Int :=
  match pad.get? j with
  | none => none
  | some p => p.parentIndex

/-- Indices below k whose entry names position i as its parent, in array
    order (the children recorded after the first k entries are processed). -/
def childrenIdxBelow (pad : List ProtoArrayNode) (k i : Nat) : List Nat :=
  (List.range k).filter (fun j => decide (parentOf pad j = some (i : Int)))

/-- Indices whose entry names position i as its parent, in array order. -/
def childrenIdxList (pad : List ProtoArrayNode) (i : Nat) : List Nat :=
  childrenIdxBelow pad pad.length i

/-- Per-entry well-formedness of the parent pointer: the first entry is the
    unique parentless one and every other parent index points to an earlier
    entry. -/
def parentOkB (pad : List ProtoArrayNode) (j : Nat) : Bool :=
  match parentOf pad j with
  | none => j == 0
  | some p => decide (0 ≤ p) && decide (p.toNat < j)

/-- The spec's data-model invariant for the flat array: non-empty, parent
    indices valid and pointing to earlier entries with the unique parentless
    entry first, and block roots pairwise distinct. -/
def WellFormedInput (pad : List ProtoArrayNode) : Prop :=
  0 < pad.length ∧
  (∀ j, j < pad.length → parentOkB pad j = true) ∧
  (pad.map (fun p => p.root)).Nodup

instance (pad : List ProtoArrayNode) : Decidable (WellFormedInput pad) := by
  unfold WellFormedInput
  infer_instance

/-- Fuelled ancestor walk along the parent pointers; since every step
    strictly decreases the position, fuel equal to the starting position
    always suffices (isAncestor_eq below recovers the natural recursion). -/
def ancAux (pad : List ProtoArrayNode) (i : Nat) : Nat → Nat → Bool
  | 0, j => decide (i = j)
  | fuel + 1, j =>
    if i = j then true
    else
      match parentOf pad j with
      | none => false
      | some p => if p.toNat < j then ancAux pad i fuel p.toNat else false

/-- i is an ancestor of j (inclusive) along the parent pointers; the
    strictly-decreasing index guard makes the walk total on every input and
    is vacuous on well-formed ones. -/
def isAncestor (pad : List ProtoArrayNode) (i j : Nat) : Bool :=
  ancAux pad i j j

/-- Number of entries in the parent-structure subtree at position i
    (specification-side; the strictly-descending guard makes it total). -/
def subtreeSize (pad : List ProtoArrayNode) (i : Nat) : Nat :=
  1 + (((childrenIdxList pad i).filter (fun j => i < j)).attach.map
        (fun x => subtreeSize pad x.1)).sum
termination_by pad.length - i
decreasing_by
  have hx := x.2
  simp only [childrenIdxList, childrenIdxBelow, List.mem_filter, List.mem_range,
    decide_eq_true_eq] at hx
  omega

mutual

/-- Every CountCollapsedBlocks in the tree is zero. -/
def allCountsZero : ForkChoiceNode → Bool
  | .mk cs _ _ _ _ k => (k == 0) && allCountsZeroList cs

def allCountsZeroList : List ForkChoiceNode → Bool
  | [] => true
  | t :: ts => allCountsZero t && allCountsZeroList ts

end

mutual

/-- No single-child node has a single-child child: the shape invariant of
    compactSingleChildren output. -/
def compacted : ForkChoiceNode → Bool
  | .mk [] _ _ _ _ _ => true
  | .mk [c] _ _ _ _ _ => (c.children.length != 1) && compacted c
  | .mk (c1 :: c2 :: cs) _ _ _ _ _ => compactedList (c1 :: c2 :: cs)

def compactedList : List ForkChoiceNode → Bool
  | [] => true
  | t :: ts => compacted t && compactedList ts

end

mutual

/-- No node of the tree is marked canonical. -/
def noCanon : ForkChoiceNode → Bool
  | .mk cs _ _ _ cn _ => !cn && noCanonList cs

def noCanonList : List ForkChoiceNode → Bool
  | [] => true
  | t :: ts => noCanon t && noCanonList ts

end

mutual

/-- The canonical-marked nodes of the tree form one contiguous path from
    the root down to the leaf whose block root is `target`: the root is
    canonical, each path node other than the final one has exactly one
    canonical child (which continues the path) with every sibling subtree
    canonical-free, and the path ends at a childless node rooted `target`. -/
def canonPathTo : ForkChoiceNode → String → Bool
  | .mk cs _ r _ cn _, target =>
    cn && (if r = target then cs.isEmpty else pathChildren cs target)

def pathChildren : List ForkChoiceNode → String → Bool
  | [], _ => false
  | t :: ts, target =>
    if t.isCanonical then canonPathTo t target && noCanonList ts
    else noCanon t && pathChildren ts target

end

mutual

/-- Slots parse and never decrease along edges into canonical children
    (checked on the whole tree, recursively below canonical children). -/
def canonSlotsMono : ForkChoiceNode → Bool
  | .mk cs sl _ _ _ _ =>
    match atoi sl with
    | none => false
    | some s => canonSlotsMonoList s cs

def canonSlotsMonoList : Int → List ForkChoiceNode → Bool
  | _, [] => true
  | s, t :: ts =>
    (if t.isCanonical then
       match atoi t.slot with
       | none => false
       | some s2 => decide (s ≤ s2) && canonSlotsMono t
     else true) && canonSlotsMonoList s ts

end

/-- Reachability from s by repeatedly stepping into a child marked
    canonical. -/
inductive CanonReach : ForkChoiceNode → ForkChoiceNode → Prop where
  | refl (t : ForkChoiceNode) : CanonReach t t
  | step {s t : ForkChoiceNode} (c : ForkChoiceNode) (hc : c ∈ s.children)
      (hcan : c.isCanonical = true) (h : CanonReach c t) : CanonReach s t

/-- The indices of which i is an ancestor (inclusive), as a finite set. -/
def ancSet (pad : List ProtoArrayNode) (i : Nat) : Finset Nat :=
  (Finset.range pad.length).filter (fun j => isAncestor pad i j = true)

/-- The last record of the list carrying block root r, if any (the record
    whose descriptor survives in the Go nodes map, which is keyed by root). -/
def lastWithRoot : List ProtoArrayNode → String → Option ProtoArrayNode
  | [], _ => none
  | p :: rest, r =>
    match lastWithRoot rest r with
    | some q => some q
    | none => if p.root = r then some p else none

mutual

/-- Number of nodes of the tree carrying the given block root. -/
def countRoot : ForkChoiceNode → String → Nat
  | .mk cs _ r _ _ _, target => (if r = target then 1 else 0) + countRootList cs target

def countRootList : List ForkChoiceNode → String → Nat
  | [], _ => 0
  | t :: ts, target => countRoot t target + countRootList ts target

end

/-- The fork-choice shape of the head input: the supplied head index names
    entry h, exactly the ancestors (inclusive) of entry h carry a
    best_descendant equal to the head index, and entry h is childless.
    This is what the proto array of a consensus node guarantees about its
    canonical head entry. -/
def HeadChainHyp (pad : List ProtoArrayNode) (hI : Int) (h : Nat) : Prop :=
  h < pad.length ∧ hI = (h : Int) ∧
  (∀ i, i < pad.length →
    (((entryAt pad i).bestDescendant = hI) ↔ isAncestor pad i h = true)) ∧
  childrenIdxList pad h = []

instance (pad : List ProtoArrayNode) (hI : Int) (h : Nat) :
    Decidable (HeadChainHyp pad hI h) := by
  unfold HeadChainHyp
  infer_instance

/- Concrete inputs used by counterexamples and witnesses. -/

/-- A node of slot 0 whose only child is not canonical: inside the pruning
    window walk this is exactly the state the Go loop can never leave. -/
def cexPruneTree : ForkChoiceNode :=
  .mk [.mk [] "9" "b" 0 false 0] "0" "a" 0 false 0

/-- One parentless entry. -/
def exSoloPad : List ProtoArrayNode :=
  [{ slot := "0", root := "a", parentIndex := none, weight := 0, bestDescendant := 0 }]

/-- A well-formed four-entry array: chain a-b-c plus a fork child d of a;
    entries 0, 1, 2 (the ancestors of the head entry 2) carry
    best_descendant 2. -/
def exChainPad : List ProtoArrayNode :=
  [{ slot := "0", root := "a", parentIndex := none, weight := 0, bestDescendant := 2 },
   { slot := "1", root := "b", parentIndex := some 0, weight := 0, bestDescendant := 2 },
   { slot := "2", root := "c", parentIndex := some 1, weight := 0, bestDescendant := 2 },
   { slot := "1", root := "d", parentIndex := some 0, weight := 0, bestDescendant := 9 }]

/-- Two entries whose unique parentless entry sits at position 1, not 0. -/
def cexSwapPad : List ProtoArrayNode :=
  [{ slot := "1", root := "b", parentIndex := some 1, weight := 0, bestDescendant := 0 },
   { slot := "0", root := "a", parentIndex := none, weight := 0, bestDescendant := 0 }]

/-- Acyclic parent structure (parents 0 and 1) in which entries 1 and 2
    share the root b: the children index then maps b to [b], a cycle. -/
def cexDupPad : List ProtoArrayNode :=
  [{ slot := "0", root := "a", parentIndex := none, weight := 0, bestDescendant := 0 },
   { slot := "1", root := "b", parentIndex := some 0, weight := 0, bestDescendant := 0 },
   { slot := "2", root := "b", parentIndex := some 1, weight := 0, bestDescendant := 0 }]

/-- Pure four-node chain R-A-B-C with all collapsed-block counts zero. -/
def chain4 : ForkChoiceNode :=
  .mk [.mk [.mk [.mk [] "3" "C" 0 false 0] "2" "B" 0 false 0] "1" "A" 0 false 0]
    "0" "R" 0 false 0

/-- A root of slot 0 whose canonical child has slot -1. -/
def cexSlotTree : ForkChoiceNode :=
  .mk [.mk [] "-1" "c" 0 true 0] "0" "r" 0 false 0

/-- A root of slot 0 whose canonical child has slot 5. -/
def exMonoTree : ForkChoiceNode :=
  .mk [.mk [] "5" "x" 0 true 0] "0" "y" 0 false 0

/-- Three entries, the last two sharing root b with parent 0. -/
def cexDupRootsPad : List ProtoArrayNode :=
  [{ slot := "0", root := "a", parentIndex := none, weight := 0, bestDescendant := 0 },
   { slot := "1", root := "b", parentIndex := some 0, weight := 0, bestDescendant := 0 },
   { slot := "5", root := "b", parentIndex := some 0, weight := 7, bestDescendant := 0 }]


/- ===================== theorems ===================== -/

/-- Member-wise induction principle for the nested tree type. -/
theorem fcnInduction {P : ForkChoiceNode → Prop}
    (h : ∀ cs sl r w cn k, (∀ c ∈ cs, P c) → P (.mk cs sl r w cn k)) :
    ∀ t, P t
  | .mk cs sl r w cn k => h cs sl r w cn k (fun c hc => fcnInduction h c)
termination_by t => sizeOf t
decreasing_by
  have := List.sizeOf_lt_of_mem hc
  simp only [ForkChoiceNode.mk.sizeOf_spec]
  omega

theorem treeSize_mk (cs sl r w cn k) :
    treeSize (.mk cs sl r w cn k) = 1 + treeSizeList cs := by
  simp [treeSize]

theorem treeSize_pos : ∀ t, 0 < treeSize t := by
  intro t
  cases t with
  | mk cs sl r w cn k => simp [treeSize]

theorem sumChildCounts_plus_one : ∀ t, sumChildCounts t + 1 = treeSize t := by
  apply fcnInduction
  intro cs sl r w cn k ih
  have hlist : ∀ l, (∀ c ∈ l, sumChildCounts c + 1 = treeSize c) →
      sumChildCountsList l + l.length = treeSizeList l := by
    intro l
    induction l with
    | nil => intro _; simp [sumChildCountsList, treeSizeList]
    | cons t ts ihl =>
      intro hmem
      have h1 := hmem t (by simp)
      have h2 := ihl (fun c hc => hmem c (by simp [hc]))
      simp only [sumChildCountsList, treeSizeList, List.length_cons]
      omega
  have := hlist cs ih
  simp only [sumChildCounts, treeSize]
  omega

theorem conservationList (cs : List ForkChoiceNode)
    (ih : ∀ c ∈ cs, allCountsZero c = true →
      treeSize (compactSingleChildren c) + sumCollapsed (compactSingleChildren c)
        = treeSize c)
    (hz : allCountsZeroList cs = true) :
    treeSizeList (compactChildren cs) + sumCollapsedList (compactChildren cs)
      = treeSizeList cs := by
  induction cs with
  | nil => simp [compactChildren, treeSizeList, sumCollapsedList]
  | cons t ts ihl =>
    simp only [allCountsZeroList, Bool.and_eq_true] at hz
    have h1 := ih t (by simp) hz.1
    have h2 := ihl (fun c hc hcz => ih c (by simp [hc]) hcz) hz.2
    simp only [compactChildren, treeSizeList, sumCollapsedList]
    omega

theorem conservationAux : ∀ t : ForkChoiceNode,
    (allCountsZero t = true →
      treeSize (compactSingleChildren t) + sumCollapsed (compactSingleChildren t)
        = treeSize t) ∧
    (allCountsZero t = true →
      treeSize (collapseAndCompact t).1 + sumCollapsed (collapseAndCompact t).1
        + (collapseAndCompact t).2 = treeSize t) := by
  apply fcnInduction
  intro cs sl r w cn k ih
  have hP : allCountsZero (.mk cs sl r w cn k) = true →
      treeSize (compactSingleChildren (.mk cs sl r w cn k))
        + sumCollapsed (compactSingleChildren (.mk cs sl r w cn k))
        = treeSize (.mk cs sl r w cn k) := by
    intro hz
    match cs, ih with
    | [], _ =>
      simp [compactSingleChildren, treeSize, treeSizeList, sumCollapsed,
        sumCollapsedList, allCountsZero, allCountsZeroList, beq_iff_eq] at hz ⊢
      omega
    | [c], ih =>
      simp only [allCountsZero, allCountsZeroList, Bool.and_eq_true,
        beq_iff_eq] at hz
      have hQ := (ih c (by simp)).2 hz.2.1
      simp only [compactSingleChildren, treeSize, treeSizeList, sumCollapsed,
        sumCollapsedList]
      omega
    | c1 :: c2 :: rest, ih =>
      simp only [allCountsZero, Bool.and_eq_true, beq_iff_eq] at hz
      have hL := conservationList (c1 :: c2 :: rest)
        (fun c hc hcz => (ih c hc).1 hcz) hz.2
      simp only [compactSingleChildren, treeSize, sumCollapsed]
      omega
  refine ⟨hP, ?_⟩
  intro hz
  match cs, ih with
  | [], _ =>
    simpa [collapseAndCompact] using hP hz
  | [c], ih =>
    simp only [allCountsZero, allCountsZeroList, Bool.and_eq_true,
      beq_iff_eq] at hz
    have hQ := (ih c (by simp)).2 hz.2.1
    simp only [collapseAndCompact, treeSize, treeSizeList]
    omega
  | c1 :: c2 :: rest, ih =>
    simpa [collapseAndCompact] using hP hz

/-- Claim C6 (counterexample): as stated over every tree the conservation
    equation fails: a single node whose count_collapsed_blocks is already 5
    is untouched by compactSingleChildren, and 1 + 5 is not 1. -/
theorem c6_counterexample :
    ¬ (treeSize (compactSingleChildren (.mk [] "" "" 0 false 5))
        + sumCollapsed (compactSingleChildren (.mk [] "" "" 0 false 5))
        = treeSize (ForkChoiceNode.mk [] "" "" 0 false 5)) := by
  simp [compactSingleChildren, treeSize, treeSizeList, sumCollapsed, sumCollapsedList]

/-- Claim C6 (amended): for every tree all of whose count_collapsed_blocks
    values are zero — as is the case for every tree rollProtoArray builds —
    the surviving node count of compactSingleChildren t plus the sum of the
    count_collapsed_blocks values of the result equals the node count of t. -/
theorem c6_amended (t : ForkChoiceNode) (h : allCountsZero t = true) :
    treeSize (compactSingleChildren t) + sumCollapsed (compactSingleChildren t)
      = treeSize t :=
  (conservationAux t).1 h

/-- Witness for c6_amended on the four-node chain (it compacts to two nodes
    with two collapsed blocks recorded). -/
theorem c6_amended_witness :
    allCountsZero chain4 = true ∧
      treeSize (compactSingleChildren chain4) + sumCollapsed (compactSingleChildren chain4)
        = treeSize chain4 :=
  ⟨rfl, c6_amended chain4 rfl⟩

theorem compactLenList (cs : List ForkChoiceNode) :
    (compactChildren cs).length = cs.length := by
  induction cs with
  | nil => simp [compactChildren]
  | cons t ts ihl => simp [compactChildren, ihl]

theorem compactLenAux : ∀ t : ForkChoiceNode,
    (compactSingleChildren t).children.length = t.children.length ∧
    (collapseAndCompact t).1.children.length ≠ 1 := by
  apply fcnInduction
  intro cs sl r w cn k ih
  match cs, ih with
  | [], _ =>
    constructor
    · simp [compactSingleChildren, ForkChoiceNode.children]
    · simp [collapseAndCompact, compactSingleChildren, ForkChoiceNode.children]
  | [c], ih =>
    constructor
    · simp [compactSingleChildren, ForkChoiceNode.children]
    · simpa [collapseAndCompact] using (ih c (by simp)).2
  | c1 :: c2 :: rest, ih =>
    constructor
    · simp [compactSingleChildren, ForkChoiceNode.children, compactLenList]
    · simp [collapseAndCompact, compactSingleChildren, ForkChoiceNode.children,
        compactLenList]

theorem compactedList_compact (cs : List ForkChoiceNode)
    (ih : ∀ c ∈ cs, compacted (compactSingleChildren c) = true) :
    compactedList (compactChildren cs) = true := by
  induction cs with
  | nil => simp [compactChildren, compactedList]
  | cons t ts ihl =>
    simp only [compactChildren, compactedList, Bool.and_eq_true]
    exact ⟨ih t (by simp), ihl (fun c hc => ih c (by simp [hc]))⟩

theorem compactedAux : ∀ t : ForkChoiceNode,
    compacted (compactSingleChildren t) = true ∧
    compacted (collapseAndCompact t).1 = true := by
  apply fcnInduction
  intro cs sl r w cn k ih
  have hP : compacted (compactSingleChildren (.mk cs sl r w cn k)) = true := by
    match cs, ih with
    | [], _ => simp [compactSingleChildren, compacted]
    | [c], ih =>
      have h1 := (compactLenAux c).2
      have h2 := (ih c (by simp)).2
      simp only [compactSingleChildren, compacted, Bool.and_eq_true, bne_iff_ne]
      exact ⟨h1, h2⟩
    | c1 :: c2 :: rest, ih =>
      have := compactedList_compact (c1 :: c2 :: rest) (fun c hc => (ih c hc).1)
      simpa [compactSingleChildren, compactChildren, compacted, compactedList]
        using this
  refine ⟨hP, ?_⟩
  match cs, ih with
  | [], _ => simpa [collapseAndCompact] using hP
  | [c], ih => simpa [collapseAndCompact] using (ih c (by simp)).2
  | c1 :: c2 :: rest, ih => simpa [collapseAndCompact] using hP

theorem compactChildren_fixed (cs : List ForkChoiceNode)
    (ih : ∀ c ∈ cs, compacted c = true → compactSingleChildren c = c)
    (hc : compactedList cs = true) :
    compactChildren cs = cs := by
  induction cs with
  | nil => simp [compactChildren]
  | cons t ts ihl =>
    simp only [compactedList, Bool.and_eq_true] at hc
    simp only [compactChildren]
    rw [ih t (by simp) hc.1, ihl (fun c hcm hcc => ih c (by simp [hcm]) hcc) hc.2]

theorem compactFixedAux : ∀ t : ForkChoiceNode,
    (compacted t = true → compactSingleChildren t = t) ∧
    (t.children.length ≠ 1 → compacted t = true → collapseAndCompact t = (t, 0)) := by
  apply fcnInduction
  intro cs sl r w cn k ih
  have hP : compacted (.mk cs sl r w cn k) = true →
      compactSingleChildren (.mk cs sl r w cn k) = .mk cs sl r w cn k := by
    intro hc
    match cs, ih with
    | [], _ => simp [compactSingleChildren]
    | [c], ih =>
      simp only [compacted, Bool.and_eq_true, bne_iff_ne] at hc
      have hcac := (ih c (by simp)).2 hc.1 hc.2
      simp [compactSingleChildren, hcac]
    | c1 :: c2 :: rest, ih =>
      simp only [compacted] at hc
      have := compactChildren_fixed (c1 :: c2 :: rest)
        (fun c hcm hcc => (ih c hcm).1 hcc) hc
      simp [compactSingleChildren, this]
  refine ⟨hP, ?_⟩
  intro hlen hc
  match cs, ih with
  | [], _ => simp [collapseAndCompact, hP hc]
  | [c], ih => simp [ForkChoiceNode.children] at hlen
  | c1 :: c2 :: rest, ih => simp [collapseAndCompact, hP hc]

/-- Claim C7 (confirmed): compactSingleChildren is idempotent on every tree,
    count_collapsed_blocks values included. -/
theorem c7_idempotent (t : ForkChoiceNode) :
    compactSingleChildren (compactSingleChildren t) = compactSingleChildren t :=
  (compactFixedAux (compactSingleChildren t)).1 (compactedAux t).1

theorem pruneLoop_stuck (node : ForkChoiceNode) (slot target : Int)
    (hlt : slot < target) (hne : ¬ node.children.length = 0)
    (hnone : findCanonicalChild node.children = none) :
    ∀ fuel, pruneLoop fuel node slot target = none := by
  intro fuel
  induction fuel with
  | zero => rfl
  | succ f ihf => simp [pruneLoop, hlt, hne, hnone, ihf]

/-- Claim C1 (code bug): at a node inside the pruning window with children
    but no canonical child, pruneForBrowser never returns: the Go walk
    re-scans the same children forever (here: root at slot 0, sole child
    not canonical, wall clock 5 slots past genesis with one-slot epochs, so
    the target slot is 1).  The spec requires the walk to return the
    current node instead. -/
theorem c1_divergence : ∀ fuel,
    pruneForBrowser fuel cexPruneTree 0 1 1 5 = none := by
  intro fuel
  exact pruneLoop_stuck cexPruneTree 0 1 (by norm_num)
    (by simp [cexPruneTree, ForkChoiceNode.children])
    (by simp [cexPruneTree, findCanonicalChild, ForkChoiceNode.children,
      ForkChoiceNode.isCanonical]) fuel

theorem findCanonicalChild_mem : ∀ (cs : List ForkChoiceNode) (c : ForkChoiceNode),
    findCanonicalChild cs = some c → c ∈ cs ∧ c.isCanonical = true := by
  intro cs
  induction cs with
  | nil => intro c h; simp [findCanonicalChild] at h
  | cons t ts ihl =>
    intro c h
    by_cases hcan : t.isCanonical = true
    · simp [findCanonicalChild, hcan] at h
      subst h
      exact ⟨by simp, hcan⟩
    · simp only [Bool.not_eq_true] at hcan
      simp [findCanonicalChild, hcan] at h
      have := ihl c h
      exact ⟨by simp [this.1], this.2⟩

theorem canonSlotsMono_isSome (node : ForkChoiceNode)
    (hm : canonSlotsMono node = true) : (atoi node.slot).isSome := by
  cases node with
  | mk cs sl r w cn k =>
    simp only [canonSlotsMono] at hm
    cases hat : atoi sl with
    | none => rw [hat] at hm; simp at hm
    | some s => simp [ForkChoiceNode.slot, hat]

theorem canonSlotsMonoList_child (s : Int) :
    ∀ (cs : List ForkChoiceNode) (c : ForkChoiceNode),
    canonSlotsMonoList s cs = true → c ∈ cs → c.isCanonical = true →
    ∃ s2, atoi c.slot = some s2 ∧ s ≤ s2 ∧ canonSlotsMono c = true := by
  intro cs
  induction cs with
  | nil => intro c _ hc; simp at hc
  | cons t ts ihl =>
    intro c hm hc hcan
    simp only [canonSlotsMonoList, Bool.and_eq_true] at hm
    rcases List.mem_cons.mp hc with hct | hct
    · subst hct
      have h1 := hm.1
      rw [hcan] at h1
      simp only [if_true] at h1
      cases hat : atoi c.slot with
      | none => rw [hat] at h1; simp at h1
      | some s2 =>
        rw [hat] at h1
        simp only [Bool.and_eq_true, decide_eq_true_eq] at h1
        exact ⟨s2, rfl, h1.1, h1.2⟩
    · exact ihl c hm.2 hct hcan

theorem canonSlotsMono_child (node : ForkChoiceNode) (s : Int)
    (hm : canonSlotsMono node = true) (hs : atoi node.slot = some s)
    (c : ForkChoiceNode) (hc : c ∈ node.children) (hcan : c.isCanonical = true) :
    ∃ s2, atoi c.slot = some s2 ∧ s ≤ s2 ∧ canonSlotsMono c = true := by
  cases node with
  | mk cs sl r w cn k =>
    simp only [canonSlotsMono] at hm
    simp only [ForkChoiceNode.slot] at hs
    rw [hs] at hm
    simp only [ForkChoiceNode.children] at hc
    exact canonSlotsMonoList_child s cs c hm hc hcan

theorem pruneLoop_mono : ∀ (fuel : Nat) (node : ForkChoiceNode) (s target : Int)
    (r : ForkChoiceNode), canonSlotsMono node = true → atoi node.slot = some s →
    pruneLoop fuel node s target = some r →
    (∃ sr, atoi r.slot = some sr ∧ s ≤ sr) ∧ CanonReach node r := by
  intro fuel
  induction fuel with
  | zero => intro node s target r _ _ h; simp [pruneLoop] at h
  | succ f ihf =>
    intro node s target r hm hs h
    by_cases hlt : s < target
    · by_cases hzero : node.children.length = 0
      · simp only [pruneLoop, hlt, if_true, hzero, Option.some.injEq] at h
        subst h
        exact ⟨⟨s, hs, le_refl s⟩, CanonReach.refl node⟩
      · cases hfind : findCanonicalChild node.children with
        | none =>
          simp only [pruneLoop, hlt, if_true, hzero, if_false, hfind] at h
          exact ihf node s target r hm hs h
        | some child =>
          obtain ⟨hcmem, hccan⟩ := findCanonicalChild_mem node.children child hfind
          obtain ⟨s2, hs2, hle, hm2⟩ :=
            canonSlotsMono_child node s hm hs child hcmem hccan
          simp only [pruneLoop, hlt, if_true, hzero, if_false, hfind, hs2] at h
          obtain ⟨⟨sr, hsr, hle2⟩, hreach⟩ := ihf child s2 target r hm2 hs2 h
          exact ⟨⟨sr, hsr, le_trans hle hle2⟩,
            CanonReach.step child hcmem hccan hreach⟩
    · simp only [pruneLoop, hlt, if_false, Option.some.injEq] at h
      subst h
      exact ⟨⟨s, hs, le_refl s⟩, CanonReach.refl node⟩

/-- Claim C8 (counterexample): the returned slot can be smaller than the
    root slot.  With one-second slots, one-slot epochs and wall clock 5 the
    target slot is 1; the root (slot 0) descends into its canonical child of
    slot -1, which is returned, and -1 is smaller than the root slot 0. -/
theorem c8_counterexample :
    pruneForBrowser 10 cexSlotTree 0 1 1 5 = some (.mk [] "-1" "c" 0 true 0) ∧
    atoi (ForkChoiceNode.mk [] "-1" "c" 0 true 0).slot = some (-1) ∧
    atoi cexSlotTree.slot = some 0 ∧ ¬ ((0 : Int) ≤ -1) := by
  refine ⟨rfl, rfl, rfl, by norm_num⟩

theorem pruneLoop_reach : ∀ (fuel : Nat) (node : ForkChoiceNode)
    (s target : Int) (r : ForkChoiceNode),
    pruneLoop fuel node s target = some r → CanonReach node r := by
  intro fuel
  induction fuel with
  | zero => intro node s target r h; simp [pruneLoop] at h
  | succ f ihf =>
    intro node s target r h
    by_cases hlt : s < target
    · by_cases hzero : node.children.length = 0
      · simp only [pruneLoop, hlt, if_true, hzero, Option.some.injEq] at h
        subst h
        exact CanonReach.refl node
      · cases hfind : findCanonicalChild node.children with
        | none =>
          simp only [pruneLoop, hlt, if_true, hzero, if_false, hfind] at h
          exact ihf node s target r h
        | some child =>
          obtain ⟨hcmem, hccan⟩ := findCanonicalChild_mem node.children child hfind
          cases hat : atoi child.slot with
          | none =>
            simp only [pruneLoop, hlt, if_true, hzero, if_false, hfind, hat,
              Option.some.injEq] at h
            rw [← h]
            exact CanonReach.step child hcmem hccan (CanonReach.refl child)
          | some s2 =>
            simp only [pruneLoop, hlt, if_true, hzero, if_false, hfind, hat] at h
            exact CanonReach.step child hcmem hccan (ihf child s2 target r h)
    · simp only [pruneLoop, hlt, if_false, Option.some.injEq] at h
      subst h
      exact CanonReach.refl node

/-- Claim C8 (amended): whenever the pruneForBrowser walk terminates, the
    returned node is reached from the input root by following only children
    marked canonical — unconditionally; and when additionally the tree's
    slots parse and never decrease along edges into canonical children, the
    returned node's slot is at least the input root's slot. -/
theorem c8_amended (fuel : Nat) (node : ForkChoiceNode)
    (genesisTime slotsPerEpoch secondsPerSlot now : Int) (r : ForkChoiceNode)
    (h : pruneForBrowser fuel node genesisTime slotsPerEpoch secondsPerSlot now
          = some r) :
    CanonReach node r ∧
    (canonSlotsMono node = true →
      ∃ s sr, atoi node.slot = some s ∧ atoi r.slot = some sr ∧ s ≤ sr) := by
  unfold pruneForBrowser at h
  cases hat : atoi node.slot with
  | none =>
    rw [hat] at h
    simp only [Option.some.injEq] at h
    rw [← h]
    refine ⟨CanonReach.refl node, ?_⟩
    intro hm
    have := canonSlotsMono_isSome node hm
    rw [hat] at this
    simp at this
  | some s =>
    rw [hat] at h
    refine ⟨pruneLoop_reach fuel node s _ r h, ?_⟩
    intro hm
    obtain ⟨⟨sr, hsr, hle⟩, _⟩ := pruneLoop_mono fuel node s _ r hm hat h
    exact ⟨s, sr, rfl, hsr, hle⟩

/-- Witness for c8_amended: a root of slot 0 with a canonical child of slot
    5; pruning with target slot 1 returns the child. -/
theorem c8_amended_witness :
    CanonReach exMonoTree (.mk [] "5" "x" 0 true 0) ∧
    (canonSlotsMono exMonoTree = true →
      ∃ s sr, atoi exMonoTree.slot = some s ∧
        atoi (ForkChoiceNode.mk [] "5" "x" 0 true 0).slot = some sr ∧ s ≤ sr) :=
  c8_amended 10 exMonoTree 0 1 1 5 (.mk [] "5" "x" 0 true 0) rfl

/-- Claim C2 (code bug): on the empty proto array the Go code reaches
    protoArrayData[0] unguarded and panics (modelled: rollProtoArray is
    none, the abnormal outcome) instead of failing fast with a descriptive
    InvalidInput error as the spec requires. -/
theorem c2_empty_panics : ∀ hI : Int, rollProtoArray [] hI = none := by
  intro hI
  rfl

theorem mfind_mem {α : Type} : ∀ (m : List (String × α)) (k : String) (v : α),
    mfind m k = some v → (k, v) ∈ m := by
  intro m
  induction m with
  | nil => intro k v h; simp [mfind] at h
  | cons kv m ihm =>
    intro k v h
    by_cases hk : kv.1 = k
    · subst hk
      simp [mfind] at h
      subst h
      simp
    · simp [mfind, hk] at h
      exact List.mem_cons_of_mem kv (ihm k v h)

theorem registerEntry_root (pad : List ProtoArrayNode) (hI : Int)
    (st : List (String × List String) × List (String × ForkChoiceNode))
    (p : ProtoArrayNode) (hpi : p.parentIndex = none) :
    registerEntry pad hI st p
      = some (st.1, mset st.2 p.root (protoToNode hI p)) := by
  simp [registerEntry, hpi]

theorem registerEntry_parent (pad : List ProtoArrayNode) (hI : Int)
    (st : List (String × List String) × List (String × ForkChoiceNode))
    (p : ProtoArrayNode) (pi : Int) (parent : ProtoArrayNode)
    (hpi : p.parentIndex = some pi) (hpg : pget pad pi = some parent) :
    registerEntry pad hI st p
      = some (mset st.1 parent.root ((mfind st.1 parent.root).getD [] ++ [p.root]),
              mset st.2 p.root (protoToNode hI p)) := by
  simp [registerEntry, hpi, hpg]

theorem registerEntry_badParent (pad : List ProtoArrayNode) (hI : Int)
    (st : List (String × List String) × List (String × ForkChoiceNode))
    (p : ProtoArrayNode) (pi : Int)
    (hpi : p.parentIndex = some pi) (hpg : pget pad pi = none) :
    registerEntry pad hI st p = none := by
  simp [registerEntry, hpi, hpg]

theorem registerEntry_nodes (pad : List ProtoArrayNode) (hI : Int)
    (st st' : List (String × List String) × List (String × ForkChoiceNode))
    (p : ProtoArrayNode) (h : registerEntry pad hI st p = some st') :
    st'.2 = mset st.2 p.root (protoToNode hI p) := by
  cases hpi : p.parentIndex with
  | none =>
    rw [registerEntry_root pad hI st p hpi] at h
    simp only [Option.some.injEq] at h
    rw [← h]
  | some pi =>
    cases hpg : pget pad pi with
    | none => rw [registerEntry_badParent pad hI st p pi hpi hpg] at h; simp at h
    | some parent =>
      rw [registerEntry_parent pad hI st p pi parent hpi hpg] at h
      simp only [Option.some.injEq] at h
      rw [← h]

theorem registerEntries_values (pad : List ProtoArrayNode) (hI : Int) :
    ∀ (rest : List ProtoArrayNode)
      (st : List (String × List String) × List (String × ForkChoiceNode))
      (ci : List (String × List String)) (ns : List (String × ForkChoiceNode)),
    (∀ kv ∈ st.2, ∃ p : ProtoArrayNode, kv.2 = protoToNode hI p ∧ kv.1 = p.root) →
    registerEntries pad hI st rest = some (ci, ns) →
    ∀ kv ∈ ns, ∃ p : ProtoArrayNode, kv.2 = protoToNode hI p ∧ kv.1 = p.root := by
  intro rest
  induction rest with
  | nil =>
    intro st ci ns hst h
    simp only [registerEntries, Option.some.injEq] at h
    subst h
    exact hst
  | cons q rest ihr =>
    intro st ci ns hst h
    simp only [registerEntries] at h
    cases hreg : registerEntry pad hI st q with
    | none => rw [hreg] at h; simp at h
    | some st' =>
      rw [hreg] at h
      refine ihr st' ci ns ?_ h
      rw [registerEntry_nodes pad hI st st' q hreg]
      intro kv hkv
      simp only [mset, List.mem_cons] at hkv
      rcases hkv with hkv | hkv
      · exact ⟨q, by simp [hkv], by simp [hkv]⟩
      · exact hst kv hkv

theorem allCountsZero_setCanonicalTrue (c : ForkChoiceNode) :
    allCountsZero (setCanonicalTrue c) = allCountsZero c := by
  cases c with
  | mk cs sl r w cn k => simp [setCanonicalTrue, allCountsZero]

theorem allCountsZeroList_canonFlip (b : Bool) (cs : List ForkChoiceNode)
    (h : allCountsZeroList cs = true) :
    allCountsZeroList (canonFlip b cs) = true := by
  match cs with
  | [] => simpa [canonFlip] using h
  | [c] =>
    by_cases hb : (b && !c.isCanonical) = true
    · simpa [canonFlip, hb, allCountsZeroList, allCountsZero_setCanonicalTrue]
        using h
    · simpa [canonFlip, hb] using h
  | c1 :: c2 :: rest => simpa [canonFlip] using h

theorem buildChildrenWith_zero (build : ForkChoiceNode → Option ForkChoiceNode)
    (ns : List (String × ForkChoiceNode))
    (hbuild : ∀ (r : String) (t : ForkChoiceNode),
      build ((mfind ns r).getD zeroForkChoiceNode) = some t →
      allCountsZero t = true) :
    ∀ (rs : List String) (ts : List ForkChoiceNode),
    buildChildrenWith build ns rs = some ts → allCountsZeroList ts = true := by
  intro rs
  induction rs with
  | nil =>
    intro ts h
    simp only [buildChildrenWith, Option.some.injEq] at h
    simp [← h, allCountsZeroList]
  | cons r rs ihr =>
    intro ts h
    simp only [buildChildrenWith] at h
    cases hb : build ((mfind ns r).getD zeroForkChoiceNode) with
    | none => rw [hb] at h; simp at h
    | some t =>
      rw [hb] at h
      cases hrest : buildChildrenWith build ns rs with
      | none => rw [hrest] at h; simp at h
      | some ts2 =>
        rw [hrest] at h
        simp only [Option.some.injEq] at h
        rw [← h]
        simp only [allCountsZeroList, Bool.and_eq_true]
        exact ⟨hbuild r t hb, ihr ts2 hrest⟩

theorem buildTreeF_zero :
    ∀ (fuel : Nat) (node : ForkChoiceNode)
      (ns : List (String × ForkChoiceNode)) (ci : List (String × List String))
      (t : ForkChoiceNode),
    (∀ kv ∈ ns, kv.2.countCollapsedBlocks = 0 ∧ kv.2.children = []) →
    node.countCollapsedBlocks = 0 → node.children = [] →
    buildTreeF fuel node ns ci = some t → allCountsZero t = true := by
  intro fuel
  induction fuel with
  | zero => intro node ns ci t _ _ _ h; simp [buildTreeF] at h
  | succ f ihf =>
    intro node ns ci t hns hk hcs h
    simp only [buildTreeF] at h
    cases hbc : buildChildrenWith (fun n => buildTreeF f n ns ci) ns
        ((mfind ci node.root).getD []) with
    | none => rw [hbc] at h; simp at h
    | some built =>
      rw [hbc] at h
      simp only [Option.some.injEq] at h
      have hzero : allCountsZeroList built = true := by
        refine buildChildrenWith_zero _ ns ?_ _ built hbc
        intro r t2 hb
        cases hm : mfind ns r with
        | none =>
          rw [hm] at hb
          simp only [Option.getD_none] at hb
          exact ihf zeroForkChoiceNode ns ci t2 hns rfl rfl hb
        | some v =>
          rw [hm] at hb
          simp only [Option.getD_some] at hb
          obtain ⟨hv1, hv2⟩ := hns (r, v) (mfind_mem ns r v hm)
          exact ihf v ns ci t2 hns hv1 hv2 hb
      rw [← h]
      cases node with
      | mk cs0 sl r0 w cn k0 =>
        simp only [ForkChoiceNode.countCollapsedBlocks] at hk
        simp only [ForkChoiceNode.children] at hcs
        subst hcs hk
        simp only [withChildren, allCountsZero, List.nil_append, beq_self_eq_true,
          Bool.true_and]
        exact allCountsZeroList_canonFlip _ built hzero

/-- Claim C9 (confirmed): computeSummary is exactly rollProtoArray — the
    compaction call is commented out — and therefore every node of the
    served summary tree has count_collapsed_blocks zero. -/
theorem c9_summary_uncompacted (pad : List ProtoArrayNode) (hI : Int) :
    computeSummary pad hI = rollProtoArray pad hI ∧
    (∀ t, computeSummary pad hI = some t → allCountsZero t = true) := by
  refine ⟨rfl, ?_⟩
  intro t h
  unfold computeSummary rollProtoArray at h
  cases hreg : registerEntries pad hI ([], []) pad with
  | none => rw [hreg] at h; simp at h
  | some st =>
    rw [hreg] at h
    obtain ⟨ci, ns⟩ := st
    cases pad with
    | nil => simp at h
    | cons p0 rest =>
      simp only at h
      have hvals := registerEntries_values (p0 :: rest) hI (p0 :: rest)
        ([], []) ci ns (by intro kv hkv; simp at hkv) hreg
      have hns : ∀ kv ∈ ns, kv.2.countCollapsedBlocks = 0 ∧ kv.2.children = [] := by
        intro kv hkv
        obtain ⟨p, hp, _⟩ := hvals kv hkv
        simp [hp, protoToNode, ForkChoiceNode.countCollapsedBlocks,
          ForkChoiceNode.children]
      cases hm : mfind ns p0.root with
      | none =>
        rw [hm] at h
        simp only [Option.getD_none] at h
        exact buildTreeF_zero _ zeroForkChoiceNode ns ci t hns rfl rfl h
      | some v =>
        rw [hm] at h
        simp only [Option.getD_some] at h
        obtain ⟨hv1, hv2⟩ := hns (p0.root, v) (mfind_mem ns p0.root v hm)
        exact buildTreeF_zero _ v ns ci t hns hv1 hv2 h


/-- Witness for c9_summary_uncompacted on a one-entry array. -/
theorem c9_witness :
    computeSummary exSoloPad 5 = rollProtoArray exSoloPad 5 ∧
    allCountsZero (.mk [] "0" "a" 0 false 0) = true :=
  ⟨(c9_summary_uncompacted exSoloPad 5).1,
   (c9_summary_uncompacted exSoloPad 5).2 (.mk [] "0" "a" 0 false 0) rfl⟩

theorem withChildren_root (node : ForkChoiceNode) (cs : List ForkChoiceNode) :
    (withChildren node cs).root = node.root := by
  cases node with
  | mk cs0 sl r w cn k => simp [withChildren, ForkChoiceNode.root]

theorem buildTreeF_root (fuel : Nat) (node : ForkChoiceNode)
    (ns : List (String × ForkChoiceNode)) (ci : List (String × List String))
    (t : ForkChoiceNode) (h : buildTreeF fuel node ns ci = some t) :
    t.root = node.root := by
  cases fuel with
  | zero => simp [buildTreeF] at h
  | succ f =>
    simp only [buildTreeF] at h
    cases hbc : buildChildrenWith (fun n => buildTreeF f n ns ci) ns
        ((mfind ci node.root).getD []) with
    | none => rw [hbc] at h; simp at h
    | some built =>
      rw [hbc] at h
      simp only [Option.some.injEq] at h
      rw [← h, withChildren_root]

theorem mfind_mset_isSome {α : Type} (m : List (String × α)) (k k2 : String)
    (v : α) (h : (mfind m k).isSome) : (mfind (mset m k2 v) k).isSome := by
  by_cases hk : k2 = k
  · simp [mset, mfind, hk]
  · simpa [mset, mfind, hk] using h

theorem registerEntries_preserves_isSome (pad : List ProtoArrayNode) (hI : Int)
    (k : String) : ∀ (rest : List ProtoArrayNode)
      (st : List (String × List String) × List (String × ForkChoiceNode))
      (ci : List (String × List String)) (ns : List (String × ForkChoiceNode)),
    registerEntries pad hI st rest = some (ci, ns) →
    (mfind st.2 k).isSome → (mfind ns k).isSome := by
  intro rest
  induction rest with
  | nil =>
    intro st ci ns h hk
    simp only [registerEntries, Option.some.injEq] at h
    subst h
    exact hk
  | cons q rest ihr =>
    intro st ci ns h hk
    simp only [registerEntries] at h
    cases hreg : registerEntry pad hI st q with
    | none => rw [hreg] at h; simp at h
    | some st' =>
      rw [hreg] at h
      refine ihr st' ci ns h ?_
      rw [registerEntry_nodes pad hI st st' q hreg]
      exact mfind_mset_isSome st.2 k q.root (protoToNode hI q) hk

theorem registerEntries_key_present (pad : List ProtoArrayNode) (hI : Int) :
    ∀ (rest : List ProtoArrayNode)
      (st : List (String × List String) × List (String × ForkChoiceNode))
      (ci : List (String × List String)) (ns : List (String × ForkChoiceNode)),
    registerEntries pad hI st rest = some (ci, ns) →
    ∀ p ∈ rest, (mfind ns p.root).isSome := by
  intro rest
  induction rest with
  | nil => intro st ci ns _ p hp; simp at hp
  | cons q rest ihr =>
    intro st ci ns h p hp
    simp only [registerEntries] at h
    cases hreg : registerEntry pad hI st q with
    | none => rw [hreg] at h; simp at h
    | some st' =>
      rw [hreg] at h
      rcases List.mem_cons.mp hp with hpq | hpq
      · subst hpq
        refine registerEntries_preserves_isSome pad hI p.root rest st' ci ns h ?_
        rw [registerEntry_nodes pad hI st st' p hreg]
        simp [mset, mfind]
      · exact ihr st' ci ns h p hpq

/-- Claim C4 (counterexample): when the parentless entry is not first, the
    tree is not rooted at it: with the parentless entry a at position 1 and
    entry b (parent index 1) at position 0, the returned tree is rooted at
    b, not at the parentless a. -/
theorem c4_counterexample :
    (rollProtoArray cexSwapPad 0).map ForkChoiceNode.root = some "b" ∧
    (entryAt cexSwapPad 1).parentIndex = none ∧
    (entryAt cexSwapPad 1).root = "a" ∧
    (entryAt cexSwapPad 0).parentIndex = some 1 ∧
    ¬ ((rollProtoArray cexSwapPad 0).map ForkChoiceNode.root = some "a") := by
  refine ⟨rfl, rfl, rfl, rfl, by decide⟩

/-- Claim C4 (amended): the tree rollProtoArray returns is rooted at the
    block root of the array's FIRST entry (protoArrayData[0]), whatever the
    position of the parentless entry; under the data-model invariant the
    first entry is the parentless one, and only then do the two coincide. -/
theorem c4_amended (pad : List ProtoArrayNode) (hI : Int) (t : ForkChoiceNode)
    (p0 : ProtoArrayNode) (h : rollProtoArray pad hI = some t)
    (hp0 : pad.head? = some p0) : t.root = p0.root := by
  unfold rollProtoArray at h
  cases hreg : registerEntries pad hI ([], []) pad with
  | none => rw [hreg] at h; simp at h
  | some st =>
    rw [hreg] at h
    obtain ⟨ci, ns⟩ := st
    cases pad with
    | nil => simp at hp0
    | cons q rest =>
      simp only [List.head?_cons, Option.some.injEq] at hp0
      subst hp0
      simp only at h
      have hpres := registerEntries_key_present (q :: rest) hI (q :: rest)
        ([], []) ci ns hreg q (by simp)
      cases hm : mfind ns q.root with
      | none => rw [hm] at hpres; simp at hpres
      | some v =>
        rw [hm] at h
        simp only [Option.getD_some] at h
        have hroot := buildTreeF_root _ v ns ci t h
        have hvals := registerEntries_values (q :: rest) hI (q :: rest)
          ([], []) ci ns (by intro kv hkv; simp at hkv) hreg
        obtain ⟨p, hp1, hp2⟩ := hvals (q.root, v) (mfind_mem ns q.root v hm)
        simp only at hp1 hp2
        rw [hroot, hp1]
        simp only [protoToNode, ForkChoiceNode.root]
        exact hp2.symm

/-- Witness for c4_amended on the one-entry array. -/
theorem c4_amended_witness :
    (ForkChoiceNode.mk [] "0" "a" 0 false 0).root = (entryAt exSoloPad 0).root :=
  c4_amended exSoloPad 5 (.mk [] "0" "a" 0 false 0) (entryAt exSoloPad 0) rfl rfl

theorem mfind_mset {α : Type} (m : List (String × α)) (k k2 : String) (v : α) :
    mfind (mset m k v) k2 = if k = k2 then some v else mfind m k2 := by
  simp [mset, mfind]

theorem registerEntries_lastWithRoot (pad : List ProtoArrayNode) (hI : Int) :
    ∀ (rest : List ProtoArrayNode)
      (st : List (String × List String) × List (String × ForkChoiceNode))
      (ci : List (String × List String)) (ns : List (String × ForkChoiceNode)),
    registerEntries pad hI st rest = some (ci, ns) →
    ∀ r, mfind ns r = (match lastWithRoot rest r with
      | some p => some (protoToNode hI p)
      | none => mfind st.2 r) := by
  intro rest
  induction rest with
  | nil =>
    intro st ci ns h r
    simp only [registerEntries, Option.some.injEq] at h
    subst h
    simp [lastWithRoot]
  | cons q rest ihr =>
    intro st ci ns h r
    simp only [registerEntries] at h
    cases hreg : registerEntry pad hI st q with
    | none => rw [hreg] at h; simp at h
    | some st' =>
      rw [hreg] at h
      have hih := ihr st' ci ns h r
      have hst2 := registerEntry_nodes pad hI st st' q hreg
      cases hlast : lastWithRoot rest r with
      | some p =>
        rw [hlast] at hih
        simp only [lastWithRoot, hlast]
        exact hih
      | none =>
        rw [hlast] at hih
        simp only [lastWithRoot, hlast]
        rw [hih, hst2, mfind_mset]
        by_cases hqr : q.root = r
        · simp [hqr]
        · simp [hqr]

/-- Claim C10 (amended, part 1): the Go nodes map is keyed by block root,
    so the registered descriptor for root r is built from the LAST record
    of the array whose root is r. -/
theorem c10_amended (pad : List ProtoArrayNode) (hI : Int) (r : String)
    (ci : List (String × List String)) (ns : List (String × ForkChoiceNode))
    (h : registerEntries pad hI ([], []) pad = some (ci, ns)) :
    mfind ns r = (lastWithRoot pad r).map (protoToNode hI) := by
  have := registerEntries_lastWithRoot pad hI pad ([], []) ci ns h r
  cases hlast : lastWithRoot pad r with
  | some p => rw [hlast] at this; simp [this]
  | none => rw [hlast] at this; simpa [mfind] using this

/-- Claim C10 (counterexample): a duplicated root does NOT yield fewer
    tree nodes — each occurrence in a children list materializes a node —
    so the tree can have as many nodes as the array, with the duplicated
    root present twice. -/
theorem c10_counterexample :
    (rollProtoArray cexDupRootsPad 0).map (fun t => treeSize t) = some 3 ∧
    cexDupRootsPad.length = 3 ∧
    (rollProtoArray cexDupRootsPad 0).map (fun t => countRoot t "b") = some 2 :=
  ⟨rfl, rfl, rfl⟩

/-- Witness for c10_amended on the duplicated-root array: the map entry for
    b is the descriptor of the LAST b record (slot 5, weight 7). -/
theorem c10_amended_witness :
    mfind [("b", ForkChoiceNode.mk [] "5" "b" 7 true 0),
           ("b", ForkChoiceNode.mk [] "1" "b" 0 true 0),
           ("a", ForkChoiceNode.mk [] "0" "a" 0 true 0)] "b"
      = (lastWithRoot cexDupRootsPad "b").map (protoToNode 0) :=
  c10_amended cexDupRootsPad 0 "b" [("a", ["b", "b"]), ("a", ["b"])]
    [("b", ForkChoiceNode.mk [] "5" "b" 7 true 0),
     ("b", ForkChoiceNode.mk [] "1" "b" 0 true 0),
     ("a", ForkChoiceNode.mk [] "0" "a" 0 true 0)] rfl

theorem ancAux_fuel (pad : List ProtoArrayNode) (i : Nat) :
    ∀ fuel j, j ≤ fuel → ancAux pad i fuel j = ancAux pad i j j := by
  intro fuel
  induction fuel using Nat.strong_induction_on with
  | _ fuel ihf =>
    intro j hj
    match fuel with
    | 0 =>
      interval_cases j
      rfl
    | fuel + 1 =>
      match j with
      | 0 =>
        simp only [ancAux]
        by_cases hij : i = 0
        · simp [hij]
        · simp only [hij, if_false]
          cases hp : parentOf pad 0 with
          | none => rfl
          | some p => simp [decide_eq_true_eq, hij, Ne.symm hij]
      | j + 1 =>
        simp only [ancAux]
        by_cases hij : i = j + 1
        · simp [hij]
        · simp only [hij, if_false]
          cases hp : parentOf pad (j + 1) with
          | none => rfl
          | some p =>
            by_cases hlt : p.toNat < j + 1
            · simp only [hlt, if_true]
              rw [ihf fuel (by omega) p.toNat (by omega),
                ihf j (by omega) p.toNat (by omega)]
            · simp [hlt]

theorem isAncestor_unfold (pad : List ProtoArrayNode) (i j : Nat) :
    isAncestor pad i j = if i = j then true
      else match parentOf pad j with
        | none => false
        | some p => if p.toNat < j then isAncestor pad i p.toNat else false := by
  unfold isAncestor
  match j with
  | 0 =>
    simp only [ancAux]
    by_cases hij : i = 0
    · simp [hij]
    · simp only [hij, if_false, decide_eq_true_eq]
      cases hp : parentOf pad 0 with
      | none => simp [hij]
      | some p => simp [hij]
  | j + 1 =>
    simp only [ancAux]
    by_cases hij : i = j + 1
    · simp [hij]
    · simp only [hij, if_false]
      cases hp : parentOf pad (j + 1) with
      | none => rfl
      | some p =>
        by_cases hlt : p.toNat < j + 1
        · simp only [hlt, if_true]
          exact ancAux_fuel pad i j p.toNat (by omega)
        · simp [hlt]

theorem isAncestor_refl (pad : List ProtoArrayNode) (i : Nat) :
    isAncestor pad i i = true := by
  rw [isAncestor_unfold]
  simp

theorem isAncestor_le (pad : List ProtoArrayNode) (i : Nat) :
    ∀ j, isAncestor pad i j = true → i ≤ j := by
  intro j
  induction j using Nat.strong_induction_on with
  | _ j ihj =>
    intro h
    rw [isAncestor_unfold] at h
    by_cases hij : i = j
    · omega
    · simp only [hij, if_false] at h
      cases hp : parentOf pad j with
      | none => rw [hp] at h; simp at h
      | some p =>
        rw [hp] at h
        by_cases hlt : p.toNat < j
        · simp only [hlt, if_true] at h
          have := ihj p.toNat hlt h
          omega
        · simp [hlt] at h

theorem isAncestor_trans (pad : List ProtoArrayNode) (a b : Nat) :
    ∀ c, isAncestor pad a b = true → isAncestor pad b c = true →
    isAncestor pad a c = true := by
  intro c
  induction c using Nat.strong_induction_on with
  | _ c ihc =>
    intro hab hbc
    rw [isAncestor_unfold] at hbc
    by_cases hbceq : b = c
    · subst hbceq; exact hab
    · simp only [hbceq, if_false] at hbc
      cases hp : parentOf pad c with
      | none => rw [hp] at hbc; simp at hbc
      | some p =>
        rw [hp] at hbc
        by_cases hlt : p.toNat < c
        · simp only [hlt, if_true] at hbc
          have hac := ihc p.toNat hlt hab hbc
          rw [isAncestor_unfold]
          by_cases haceq : a = c
          · simp [haceq]
          · simp [haceq, hp, hlt, hac]
        · simp [hlt] at hbc

theorem parentOf_lt_length (pad : List ProtoArrayNode) (j : Nat) (p : Int)
    (hp : parentOf pad j = some p) : j < pad.length := by
  by_contra hlen
  have hlen2 : pad.length ≤ j := by omega
  have hnone : pad.get? j = none := List.get?_eq_none.mpr hlen2
  unfold parentOf at hp
  rw [hnone] at hp
  simp at hp

theorem parentOf_entryAt (pad : List ProtoArrayNode) (j : Nat)
    (hj : j < pad.length) : parentOf pad j = (entryAt pad j).parentIndex := by
  unfold parentOf entryAt
  rw [List.getD_eq_get?]
  cases hg : pad.get? j with
  | none =>
    have := List.get?_eq_none.mp hg
    omega
  | some q => simp

theorem wf_parent_some (pad : List ProtoArrayNode)
    (hwf : WellFormedInput pad) (j : Nat) (p : Int)
    (hp : parentOf pad j = some p) :
    0 ≤ p ∧ p.toNat < j ∧ j < pad.length := by
  have hjlen := parentOf_lt_length pad j p hp
  have hok := hwf.2.1 j hjlen
  unfold parentOkB at hok
  rw [hp] at hok
  simp only [Bool.and_eq_true, decide_eq_true_eq] at hok
  exact ⟨hok.1, hok.2, hjlen⟩

theorem wf_parent_zero (pad : List ProtoArrayNode)
    (hwf : WellFormedInput pad) : parentOf pad 0 = none := by
  cases hp : parentOf pad 0 with
  | none => rfl
  | some p =>
    have := wf_parent_some pad hwf 0 p hp
    omega

theorem anc_step_child (pad : List ProtoArrayNode) (j : Nat) (p : Int)
    (hp : parentOf pad j = some p) (hlt : p.toNat < j) :
    isAncestor pad p.toNat j = true := by
  rw [isAncestor_unfold]
  have hne : p.toNat ≠ j := by omega
  simp [hne, hp, hlt, isAncestor_refl]

theorem anc_root (pad : List ProtoArrayNode) (hwf : WellFormedInput pad) :
    ∀ j, j < pad.length → isAncestor pad 0 j = true := by
  intro j
  induction j using Nat.strong_induction_on with
  | _ j ihj =>
    intro hj
    by_cases hj0 : j = 0
    · subst hj0; exact isAncestor_refl pad 0
    · cases hp : parentOf pad j with
      | none =>
        have hok := hwf.2.1 j hj
        unfold parentOkB at hok
        rw [hp] at hok
        simp only [Nat.beq_eq_true_eq] at hok
        omega
      | some p =>
        obtain ⟨hp0, hplt, _⟩ := wf_parent_some pad hwf j p hp
        have hanc := ihj p.toNat hplt (by omega)
        rw [isAncestor_unfold]
        simp [Ne.symm hj0, hj0, hp, hplt, hanc]

theorem anc_exists_child (pad : List ProtoArrayNode)
    (hwf : WellFormedInput pad) (i : Nat) :
    ∀ j, isAncestor pad i j = true → i ≠ j →
    ∃ c, c < pad.length ∧ parentOf pad c = some (i : Int) ∧
      isAncestor pad c j = true := by
  intro j
  induction j using Nat.strong_induction_on with
  | _ j ihj =>
    intro hanc hne
    rw [isAncestor_unfold] at hanc
    simp only [hne, if_false] at hanc
    cases hp : parentOf pad j with
    | none => rw [hp] at hanc; simp at hanc
    | some p =>
      rw [hp] at hanc
      obtain ⟨hp0, hplt, hjlen⟩ := wf_parent_some pad hwf j p hp
      simp only [hplt, if_true] at hanc
      by_cases hpi : p.toNat = i
      · refine ⟨j, hjlen, ?_, isAncestor_refl pad j⟩
        have hpe : p = (i : Int) := by omega
        rw [hpe] at hp
        exact hp
      · obtain ⟨c, hclen, hcp, hcanc⟩ :=
          ihj p.toNat hplt hanc (fun he => hpi he.symm)
        refine ⟨c, hclen, hcp, ?_⟩
        rw [isAncestor_unfold]
        have hcle := isAncestor_le pad c p.toNat hcanc
        have hcj : c ≠ j := by omega
        simp [hcj, hp, hplt, hcanc]

theorem anc_child_disjoint (pad : List ProtoArrayNode)
    (hwf : WellFormedInput pad) (i c c' : Nat) (hne : c ≠ c')
    (hc : parentOf pad c = some (i : Int))
    (hc' : parentOf pad c' = some (i : Int)) :
    ∀ j, ¬ (isAncestor pad c j = true ∧ isAncestor pad c' j = true) := by
  have hilt : i < c := by
    have := (wf_parent_some pad hwf c _ hc).2.1
    simpa using this
  have hilt' : i < c' := by
    have := (wf_parent_some pad hwf c' _ hc').2.1
    simpa using this
  intro j
  induction j using Nat.strong_induction_on with
  | _ j ihj =>
    rintro ⟨h1, h2⟩
    by_cases hjc : j = c
    · subst hjc
      rw [isAncestor_unfold] at h2
      simp only [Ne.symm hne, if_false] at h2
      rw [hc] at h2
      have hlt : ((i : Int)).toNat < j := by simpa using hilt
      simp only [hlt, if_true] at h2
      simp only [Int.toNat_natCast] at h2
      have := isAncestor_le pad c' i h2
      omega
    · by_cases hjc' : j = c'
      · subst hjc'
        rw [isAncestor_unfold] at h1
        simp only [hne, if_false] at h1
        rw [hc'] at h1
        have hlt : ((i : Int)).toNat < j := by simpa using hilt'
        simp only [hlt, if_true] at h1
        simp only [Int.toNat_natCast] at h1
        have := isAncestor_le pad c i h1
        omega
      · rw [isAncestor_unfold] at h1 h2
        simp only [Ne.symm hjc, Ne.symm hjc', if_false] at h1 h2
        cases hp : parentOf pad j with
        | none => rw [hp] at h1; simp at h1
        | some p =>
          rw [hp] at h1 h2
          by_cases hplt : p.toNat < j
          · simp only [hplt, if_true] at h1 h2
            exact ihj p.toNat hplt ⟨h1, h2⟩
          · simp only [hplt, if_false] at h1
            simp at h1

theorem mem_childrenIdxList (pad : List ProtoArrayNode) (i j : Nat) :
    j ∈ childrenIdxList pad i ↔
      j < pad.length ∧ parentOf pad j = some (i : Int) := by
  simp [childrenIdxList, childrenIdxBelow, List.mem_filter, List.mem_range,
    decide_eq_true_eq]

theorem childrenIdx_gt (pad : List ProtoArrayNode) (hwf : WellFormedInput pad)
    (i j : Nat) (hj : j ∈ childrenIdxList pad i) : i < j ∧ j < pad.length := by
  obtain ⟨hjlen, hp⟩ := (mem_childrenIdxList pad i j).mp hj
  have := (wf_parent_some pad hwf j _ hp).2.1
  simp only [Int.toNat_natCast] at this
  exact ⟨this, hjlen⟩

theorem childrenIdxList_nodup (pad : List ProtoArrayNode) (i : Nat) :
    (childrenIdxList pad i).Nodup :=
  List.Nodup.filter _ (List.nodup_range pad.length)

theorem subtreeSize_eq (pad : List ProtoArrayNode) (hwf : WellFormedInput pad)
    (i : Nat) : subtreeSize pad i
      = 1 + ((childrenIdxList pad i).map (fun j => subtreeSize pad j)).sum := by
  rw [subtreeSize]
  have hfil : (childrenIdxList pad i).filter (fun j => i < j)
      = childrenIdxList pad i := by
    rw [List.filter_eq_self]
    intro a ha
    simpa using (childrenIdx_gt pad hwf i a ha).1
  rw [hfil, List.attach_map_val (childrenIdxList pad i) (fun j => subtreeSize pad j)]

theorem ancSet_mem (pad : List ProtoArrayNode) (i j : Nat) :
    j ∈ ancSet pad i ↔ j < pad.length ∧ isAncestor pad i j = true := by
  simp [ancSet, Finset.mem_filter, Finset.mem_range]

theorem ancSet_decomp (pad : List ProtoArrayNode) (hwf : WellFormedInput pad)
    (i : Nat) (hi : i < pad.length) :
    ancSet pad i
      = insert i ((childrenIdxList pad i).toFinset.biUnion (fun c => ancSet pad c)) := by
  ext j
  simp only [Finset.mem_insert, Finset.mem_biUnion, List.mem_toFinset]
  constructor
  · intro hj
    obtain ⟨hjlen, hanc⟩ := (ancSet_mem pad i j).mp hj
    by_cases hij : i = j
    · exact Or.inl hij.symm
    · obtain ⟨c, hclen, hcp, hcanc⟩ := anc_exists_child pad hwf i j hanc hij
      refine Or.inr ⟨c, (mem_childrenIdxList pad i c).mpr ⟨hclen, hcp⟩, ?_⟩
      exact (ancSet_mem pad c j).mpr ⟨hjlen, hcanc⟩
  · intro hj
    rcases hj with hj | ⟨c, hcmem, hj⟩
    · subst hj
      exact (ancSet_mem pad j j).mpr ⟨hi, isAncestor_refl pad j⟩
    · obtain ⟨hjlen, hcanc⟩ := (ancSet_mem pad c j).mp hj
      obtain ⟨hclen, hcp⟩ := (mem_childrenIdxList pad i c).mp hcmem
      have hic : isAncestor pad i c = true := by
        have hgt := (childrenIdx_gt pad hwf i c hcmem).1
        have := anc_step_child pad c (i : Int) hcp (by simpa using hgt)
        simpa using this
      exact (ancSet_mem pad i j).mpr
        ⟨hjlen, isAncestor_trans pad i c j hic hcanc⟩

theorem subtreeSize_card (pad : List ProtoArrayNode) (hwf : WellFormedInput pad) :
    ∀ (k i : Nat), pad.length - i ≤ k → i < pad.length →
    subtreeSize pad i = (ancSet pad i).card := by
  intro k
  induction k with
  | zero => intro i hk hi; omega
  | succ k ihk =>
    intro i hk hi
    rw [subtreeSize_eq pad hwf i]
    have hmap : (childrenIdxList pad i).map (fun j => subtreeSize pad j)
        = (childrenIdxList pad i).map (fun j => (ancSet pad j).card) := by
      apply List.map_congr_left
      intro c hc
      obtain ⟨hgt, hlen⟩ := childrenIdx_gt pad hwf i c hc
      exact ihk c (by omega) hlen
    rw [hmap]
    rw [ancSet_decomp pad hwf i hi]
    have hnotmem : i ∉ (childrenIdxList pad i).toFinset.biUnion
        (fun c => ancSet pad c) := by
      intro hmem
      simp only [Finset.mem_biUnion, List.mem_toFinset] at hmem
      obtain ⟨c, hcmem, hci⟩ := hmem
      have hanc := ((ancSet_mem pad c i).mp hci).2
      have hle := isAncestor_le pad c i hanc
      have := (childrenIdx_gt pad hwf i c hcmem).1
      omega
    rw [Finset.card_insert_of_not_mem hnotmem]
    have hdisj : ∀ x ∈ (childrenIdxList pad i).toFinset,
        ∀ y ∈ (childrenIdxList pad i).toFinset, x ≠ y →
        Disjoint (ancSet pad x) (ancSet pad y) := by
      intro x hx y hy hxy
      rw [Finset.disjoint_left]
      intro j hjx hjy
      obtain ⟨hxlen, hxp⟩ := (mem_childrenIdxList pad i x).mp
        (List.mem_toFinset.mp hx)
      obtain ⟨hylen, hyp⟩ := (mem_childrenIdxList pad i y).mp
        (List.mem_toFinset.mp hy)
      exact anc_child_disjoint pad hwf i x y hxy hxp hyp j
        ⟨((ancSet_mem pad x j).mp hjx).2, ((ancSet_mem pad y j).mp hjy).2⟩
    rw [Finset.card_biUnion hdisj]
    rw [List.sum_toFinset _ (childrenIdxList_nodup pad i)]
    omega

theorem subtreeSize_zero (pad : List ProtoArrayNode) (hwf : WellFormedInput pad) :
    subtreeSize pad 0 = pad.length := by
  rw [subtreeSize_card pad hwf pad.length 0 (by omega) hwf.1]
  have : ancSet pad 0 = Finset.range pad.length := by
    unfold ancSet
    apply Finset.filter_true_of_mem
    intro j hj
    exact anc_root pad hwf j (Finset.mem_range.mp hj)
  rw [this, Finset.card_range]

theorem drop_cons_facts (pad : List ProtoArrayNode) (k : Nat)
    (q : ProtoArrayNode) (rest : List ProtoArrayNode)
    (h : pad.drop k = q :: rest) :
    pad.get? k = some q ∧ pad.drop (k + 1) = rest ∧ k < pad.length := by
  have hget : pad.get? k = some q := by
    have := List.get?_drop pad k 0
    rw [h] at this
    simpa using this.symm
  refine ⟨hget, ?_, ?_⟩
  · have := List.drop_drop 1 k pad
    rw [h] at this
    simpa using this.symm
  · by_contra hlen
    have : pad.get? k = none := List.get?_eq_none.mpr (by omega)
    rw [hget] at this
    simp at this

theorem entryAt_of_get (pad : List ProtoArrayNode) (k : Nat) (q : ProtoArrayNode)
    (h : pad.get? k = some q) : entryAt pad k = q := by
  unfold entryAt
  rw [List.getD_eq_get?, h]
  rfl

theorem get_of_lt (pad : List ProtoArrayNode) (k : Nat) (hk : k < pad.length) :
    pad.get? k = some (entryAt pad k) := by
  cases hg : pad.get? k with
  | none =>
    have := List.get?_eq_none.mp hg
    omega
  | some q => rw [entryAt_of_get pad k q hg]

theorem parentOf_get (pad : List ProtoArrayNode) (k : Nat) (q : ProtoArrayNode)
    (h : pad.get? k = some q) : parentOf pad k = q.parentIndex := by
  unfold parentOf
  rw [h]

theorem rootAt_inj (pad : List ProtoArrayNode) (hwf : WellFormedInput pad)
    (i j : Nat) (hi : i < pad.length) (hj : j < pad.length)
    (h : rootAt pad i = rootAt pad j) : i = j := by
  have hnd := hwf.2.2
  have hinj := List.nodup_iff_injective_get.mp hnd
  have hi' : i < (pad.map (fun p => p.root)).length := by simpa using hi
  have hj' : j < (pad.map (fun p => p.root)).length := by simpa using hj
  have hgi : (pad.map (fun p => p.root)).get ⟨i, hi'⟩ = rootAt pad i := by
    rw [List.get_map]
    unfold rootAt entryAt
    rw [List.getD_eq_get pad default hi]
  have hgj : (pad.map (fun p => p.root)).get ⟨j, hj'⟩ = rootAt pad j := by
    rw [List.get_map]
    unfold rootAt entryAt
    rw [List.getD_eq_get pad default hj]
  have heq : (pad.map (fun p => p.root)).get ⟨i, hi'⟩
      = (pad.map (fun p => p.root)).get ⟨j, hj'⟩ := by
    rw [hgi, hgj, h]
  have := hinj heq
  simpa using congrArg Fin.val this

theorem childrenIdxBelow_stable (pad : List ProtoArrayNode) (k i : Nat)
    (h : ¬ (parentOf pad k = some (i : Int))) :
    childrenIdxBelow pad (k + 1) i = childrenIdxBelow pad k i := by
  unfold childrenIdxBelow
  rw [List.range_succ, List.filter_append]
  simp [h]

theorem childrenIdxBelow_step (pad : List ProtoArrayNode) (k i : Nat)
    (h : parentOf pad k = some (i : Int)) :
    childrenIdxBelow pad (k + 1) i = childrenIdxBelow pad k i ++ [k] := by
  unfold childrenIdxBelow
  rw [List.range_succ, List.filter_append]
  simp [h]

theorem parentOf_ge (pad : List ProtoArrayNode) (k : Nat)
    (hk : pad.length ≤ k) : parentOf pad k = none := by
  unfold parentOf
  rw [List.get?_eq_none.mpr hk]

theorem childrenIdxBelow_ge (pad : List ProtoArrayNode) (i : Nat) :
    ∀ k, pad.length ≤ k → childrenIdxBelow pad k i = childrenIdxList pad i := by
  intro k
  induction k with
  | zero =>
    intro hk
    have h0 : pad.length = 0 := by omega
    unfold childrenIdxList
    rw [h0]
  | succ k ihk =>
    intro hk
    by_cases hke : pad.length ≤ k
    · rw [childrenIdxBelow_stable pad k i
        (by rw [parentOf_ge pad k hke]; simp), ihk hke]
    · have hlen : pad.length = k + 1 := by omega
      unfold childrenIdxList
      rw [hlen]

theorem registerEntries_success (pad : List ProtoArrayNode) (hI : Int)
    (hwf : WellFormedInput pad) :
    ∀ (rest : List ProtoArrayNode) (k : Nat)
      (st : List (String × List String) × List (String × ForkChoiceNode)),
    pad.drop k = rest →
    ∃ stout, registerEntries pad hI st rest = some stout := by
  intro rest
  induction rest with
  | nil => intro k st _; exact ⟨st, rfl⟩
  | cons q rest ihr =>
    intro k st hdrop
    obtain ⟨hget, hdrop2, hklen⟩ := drop_cons_facts pad k q rest hdrop
    have hq : entryAt pad k = q := entryAt_of_get pad k q hget
    have hpq : parentOf pad k = q.parentIndex := parentOf_get pad k q hget
    cases hpi : q.parentIndex with
    | none =>
      obtain ⟨stout, hout⟩ := ihr (k + 1)
        (st.1, mset st.2 q.root (protoToNode hI q)) hdrop2
      refine ⟨stout, ?_⟩
      simp only [registerEntries, registerEntry_root pad hI st q hpi]
      exact hout
    | some pi =>
      have hpk : parentOf pad k = some pi := by rw [hpq, hpi]
      obtain ⟨hpi0, hpilt, _⟩ := wf_parent_some pad hwf k pi hpk
      have hpg : pget pad pi = some (entryAt pad pi.toNat) := by
        unfold pget
        rw [if_neg (by omega)]
        exact get_of_lt pad pi.toNat (by omega)
      obtain ⟨stout, hout⟩ := ihr (k + 1) _ hdrop2
      refine ⟨stout, ?_⟩
      simp only [registerEntries,
        registerEntry_parent pad hI st q pi (entryAt pad pi.toNat) hpi hpg]
      exact hout

theorem registerEntries_childrenIdx (pad : List ProtoArrayNode) (hI : Int)
    (hwf : WellFormedInput pad) :
    ∀ (rest : List ProtoArrayNode) (k : Nat)
      (st : List (String × List String) × List (String × ForkChoiceNode))
      (ci : List (String × List String)) (ns : List (String × ForkChoiceNode)),
    pad.drop k = rest →
    (∀ i, i < pad.length → (mfind st.1 (rootAt pad i)).getD []
      = (childrenIdxBelow pad k i).map (rootAt pad)) →
    registerEntries pad hI st rest = some (ci, ns) →
    ∀ i, i < pad.length → (mfind ci (rootAt pad i)).getD []
      = (childrenIdxList pad i).map (rootAt pad) := by
  intro rest
  induction rest with
  | nil =>
    intro k st ci ns hdrop hinv h i hi
    simp only [registerEntries, Option.some.injEq] at h
    have hk : pad.length ≤ k := by
      by_contra hlen
      have hg := get_of_lt pad k (by omega)
      have h2 := List.get?_drop pad k 0
      rw [hdrop] at h2
      simp only [List.get?_nil, Nat.add_zero] at h2
      rw [hg] at h2
      simp at h2
    rw [← childrenIdxBelow_ge pad i k hk]
    rw [h] at hinv
    exact hinv i hi
  | cons q rest ihr =>
    intro k st ci ns hdrop hinv h i hi
    obtain ⟨hget, hdrop2, hklen⟩ := drop_cons_facts pad k q rest hdrop
    have hq : entryAt pad k = q := entryAt_of_get pad k q hget
    have hpq : parentOf pad k = q.parentIndex := parentOf_get pad k q hget
    simp only [registerEntries] at h
    cases hpi : q.parentIndex with
    | none =>
      rw [registerEntry_root pad hI st q hpi] at h
      refine ihr (k + 1) _ ci ns hdrop2 ?_ h i hi
      intro i2 hi2
      rw [childrenIdxBelow_stable pad k i2 (by rw [hpq, hpi]; simp)]
      exact hinv i2 hi2
    | some pi =>
      have hpk : parentOf pad k = some pi := by rw [hpq, hpi]
      obtain ⟨hpi0, hpilt, _⟩ := wf_parent_some pad hwf k pi hpk
      have hpg : pget pad pi = some (entryAt pad pi.toNat) := by
        unfold pget
        rw [if_neg (by omega)]
        exact get_of_lt pad pi.toNat (by omega)
      rw [registerEntry_parent pad hI st q pi (entryAt pad pi.toNat) hpi hpg] at h
      refine ihr (k + 1) _ ci ns hdrop2 ?_ h i hi
      intro i2 hi2
      have hpieq : pi = ((pi.toNat : Nat) : Int) := by omega
      by_cases hieq : i2 = pi.toNat
      · subst hieq
        have hroot : (entryAt pad pi.toNat).root = rootAt pad pi.toNat := rfl
        simp only [mfind_mset, hroot, if_pos rfl]
        rw [childrenIdxBelow_step pad k pi.toNat (by rw [hpk, ← hpieq])]
        rw [List.map_append]
        simp only [Option.getD_some, List.map_cons, List.map_nil]
        rw [hinv pi.toNat hi2]
        have hqr : q.root = rootAt pad k := by rw [← hq]; rfl
        rw [hqr]
        simp
      · have hrne : rootAt pad pi.toNat ≠ rootAt pad i2 := by
          intro he
          exact hieq (rootAt_inj pad hwf pi.toNat i2 (by omega) hi2 he).symm
        have hroot : (entryAt pad pi.toNat).root = rootAt pad pi.toNat := rfl
        simp only [mfind_mset, hroot, if_neg hrne]
        rw [childrenIdxBelow_stable pad k i2
          (by rw [hpk]; intro he; simp only [Option.some.injEq] at he; omega)]
        exact hinv i2 hi2

theorem lastWithRoot_none (r : String) :
    ∀ l : List ProtoArrayNode, (∀ p ∈ l, p.root ≠ r) → lastWithRoot l r = none := by
  intro l
  induction l with
  | nil => intro _; rfl
  | cons q rest ihl =>
    intro hne
    simp only [lastWithRoot]
    rw [ihl (fun p hp => hne p (by simp [hp]))]
    simp [hne q (by simp)]

theorem entryAt_cons_zero (q : ProtoArrayNode) (rest : List ProtoArrayNode) :
    entryAt (q :: rest) 0 = q := rfl

theorem entryAt_cons_succ (q : ProtoArrayNode) (rest : List ProtoArrayNode)
    (i : Nat) : entryAt (q :: rest) (i + 1) = entryAt rest i := by
  simp [entryAt, List.getD]

theorem lastWithRoot_nodup :
    ∀ (pad : List ProtoArrayNode),
    (pad.map (fun p => p.root)).Nodup →
    ∀ i, i < pad.length → lastWithRoot pad (rootAt pad i) = some (entryAt pad i) := by
  intro pad
  induction pad with
  | nil => intro _ i hi; simp at hi
  | cons q rest ihp =>
    intro hnd i hi
    simp only [List.map_cons, List.nodup_cons] at hnd
    match i with
    | 0 =>
      have hroot : rootAt (q :: rest) 0 = q.root := rfl
      rw [hroot, entryAt_cons_zero]
      simp only [lastWithRoot]
      rw [lastWithRoot_none q.root rest ?_]
      · simp
      · intro p hp he
        exact hnd.1 (List.mem_map.mpr ⟨p, hp, he⟩)
    | i + 1 =>
      have hroot : rootAt (q :: rest) (i + 1) = rootAt rest i := by
        unfold rootAt
        rw [entryAt_cons_succ]
      rw [hroot, entryAt_cons_succ]
      simp only [lastWithRoot]
      rw [ihp hnd.2 i (by simpa using hi)]

theorem registerEntries_nodes_final (pad : List ProtoArrayNode) (hI : Int)
    (ci : List (String × List String)) (ns : List (String × ForkChoiceNode))
    (hwf : WellFormedInput pad)
    (h : registerEntries pad hI ([], []) pad = some (ci, ns)) :
    ∀ i, i < pad.length →
    mfind ns (rootAt pad i) = some (protoToNode hI (entryAt pad i)) := by
  intro i hi
  have hlw := registerEntries_lastWithRoot pad hI pad ([], []) ci ns h (rootAt pad i)
  rw [lastWithRoot_nodup pad hwf.2.2 i hi] at hlw
  exact hlw

theorem treeSize_withChildren (node : ForkChoiceNode) (cs : List ForkChoiceNode) :
    treeSize (withChildren node cs) = 1 + treeSizeList cs := by
  cases node with
  | mk cs0 sl r w cn k => simp [withChildren, treeSize]

theorem treeSize_setCanonicalTrue (c : ForkChoiceNode) :
    treeSize (setCanonicalTrue c) = treeSize c := by
  cases c with
  | mk cs sl r w cn k => simp [setCanonicalTrue, treeSize]

theorem treeSizeList_canonFlip (b : Bool) (cs : List ForkChoiceNode) :
    treeSizeList (canonFlip b cs) = treeSizeList cs := by
  match cs with
  | [] => rfl
  | [c] =>
    by_cases hb : (b && !c.isCanonical) = true
    · simp [canonFlip, hb, treeSizeList, treeSize_setCanonicalTrue]
    · simp [canonFlip, hb]
  | c1 :: c2 :: rest => rfl

theorem buildTreeF_sized (pad : List ProtoArrayNode) (hI : Int)
    (ci : List (String × List String)) (ns : List (String × ForkChoiceNode))
    (hwf : WellFormedInput pad)
    (hci : ∀ i, i < pad.length → (mfind ci (rootAt pad i)).getD []
      = (childrenIdxList pad i).map (rootAt pad))
    (hns : ∀ i, i < pad.length →
      mfind ns (rootAt pad i) = some (protoToNode hI (entryAt pad i))) :
    ∀ (fuel i : Nat), i < pad.length → pad.length - i ≤ fuel →
    ∃ t, buildTreeF fuel (protoToNode hI (entryAt pad i)) ns ci = some t ∧
      treeSize t = subtreeSize pad i := by
  intro fuel
  induction fuel with
  | zero => intro i hi hf; omega
  | succ f ihf =>
    intro i hi hf
    have hroot : (protoToNode hI (entryAt pad i)).root = rootAt pad i := rfl
    have hinner : ∀ js : List Nat,
        (∀ j ∈ js, j < pad.length ∧ pad.length - j ≤ f) →
        ∃ ts, buildChildrenWith (fun n => buildTreeF f n ns ci) ns
            (js.map (rootAt pad)) = some ts ∧
          treeSizeList ts = (js.map (fun j => subtreeSize pad j)).sum := by
      intro js
      induction js with
      | nil => intro _; exact ⟨[], rfl, rfl⟩
      | cons j js ihjs =>
        intro hjs
        obtain ⟨hjlen, hjf⟩ := hjs j (by simp)
        obtain ⟨t, ht, hsize⟩ := ihf j hjlen hjf
        obtain ⟨ts, hts, hsizes⟩ := ihjs (fun a ha => hjs a (by simp [ha]))
        refine ⟨t :: ts, ?_, ?_⟩
        · simp only [List.map_cons, buildChildrenWith]
          rw [hns j hjlen]
          simp only [Option.getD_some]
          rw [ht, hts]
        · simp [treeSizeList, hsize, hsizes]
    have hcond : ∀ j ∈ childrenIdxList pad i,
        j < pad.length ∧ pad.length - j ≤ f := by
      intro j hj
      obtain ⟨hgt, hlen⟩ := childrenIdx_gt pad hwf i j hj
      exact ⟨hlen, by omega⟩
    obtain ⟨ts, hts, hsizes⟩ := hinner (childrenIdxList pad i) hcond
    refine ⟨withChildren (protoToNode hI (entryAt pad i))
      (canonFlip (protoToNode hI (entryAt pad i)).isCanonical
        ((protoToNode hI (entryAt pad i)).children ++ ts)), ?_, ?_⟩
    · simp only [buildTreeF]
      rw [hroot, hci i hi, hts]
    · have hnilc : (protoToNode hI (entryAt pad i)).children = [] := rfl
      rw [treeSize_withChildren, hnilc, List.nil_append, treeSizeList_canonFlip,
        hsizes, subtreeSize_eq pad hwf i]

/-- Claim C5 (amended): for every array satisfying the data-model invariant
    (non-empty, parents pointing to earlier entries with the unique
    parentless entry first, DISTINCT roots), rollProtoArray terminates and
    returns a tree with exactly N nodes, whose children lists summed over
    the whole tree hold N-1 entries. -/
theorem c5_amended (pad : List ProtoArrayNode) (hI : Int)
    (hwf : WellFormedInput pad) :
    ∃ t, rollProtoArray pad hI = some t ∧ treeSize t = pad.length ∧
      sumChildCounts t = pad.length - 1 := by
  obtain ⟨p0, rest, rfl⟩ : ∃ p0 rest, pad = p0 :: rest := by
    cases pad with
    | nil => exact absurd hwf.1 (by simp)
    | cons p0 rest => exact ⟨p0, rest, rfl⟩
  obtain ⟨stout, hreg⟩ :=
    registerEntries_success (p0 :: rest) hI hwf (p0 :: rest) 0 ([], []) rfl
  obtain ⟨ci, ns⟩ := stout
  have hci := registerEntries_childrenIdx (p0 :: rest) hI hwf (p0 :: rest) 0
    ([], []) ci ns rfl (fun i _ => rfl) hreg
  have hns := registerEntries_nodes_final (p0 :: rest) hI ci ns hwf hreg
  obtain ⟨t, hbuild, hsize⟩ := buildTreeF_sized (p0 :: rest) hI ci ns hwf hci hns
    ((p0 :: rest).length + 1) 0 (by simp) (by omega)
  refine ⟨t, ?_, ?_, ?_⟩
  · unfold rollProtoArray
    rw [hreg]
    simp only
    have h0 : mfind ns p0.root = some (protoToNode hI (entryAt (p0 :: rest) 0)) :=
      hns 0 (by simp)
    rw [h0, Option.getD_some]
    exact hbuild
  · rw [hsize, subtreeSize_zero (p0 :: rest) hwf]
  · have := sumChildCounts_plus_one t
    rw [hsize, subtreeSize_zero (p0 :: rest) hwf] at this
    omega

/-- Witness for c5_amended on the four-entry array. -/
theorem c5_amended_witness :
    WellFormedInput exChainPad ∧
    ∃ t, rollProtoArray exChainPad 2 = some t ∧ treeSize t = exChainPad.length ∧
      sumChildCounts t = exChainPad.length - 1 :=
  ⟨by decide, c5_amended exChainPad 2 (by decide)⟩

theorem dupPad_build_diverges : ∀ fuel,
    buildTreeF fuel (ForkChoiceNode.mk [] "2" "b" 0 true 0)
      [("b", ForkChoiceNode.mk [] "2" "b" 0 true 0),
       ("b", ForkChoiceNode.mk [] "1" "b" 0 true 0),
       ("a", ForkChoiceNode.mk [] "0" "a" 0 true 0)]
      [("b", ["b"]), ("a", ["b"])] = none := by
  intro fuel
  induction fuel with
  | zero => rfl
  | succ f ihf =>
    simp [buildTreeF, buildChildrenWith, mfind, ihf, ForkChoiceNode.root]

/-- Claim C5 (counterexample): an array whose index-level parent structure
    is a valid spanning tree (parents earlier, unique parentless entry
    first) but with a duplicated root makes the children index cyclic
    (b maps to [b]), so the Go recursion diverges instead of producing an
    N-node tree (model: none at the canonical fuel; dupPad_build_diverges
    shows the inner build is none at EVERY fuel). -/
theorem c5_counterexample :
    (∀ j, j < cexDupPad.length → parentOkB cexDupPad j = true) ∧
    rollProtoArray cexDupPad 0 = none :=
  ⟨by decide, rfl⟩

theorem countP_eq_one_of_unique (p : Nat → Bool) :
    ∀ (js : List Nat), js.Nodup → ∀ c ∈ js, p c = true →
    (∀ b ∈ js, p b = true → b = c) → js.countP p = 1 := by
  intro js
  induction js with
  | nil => intro _ c hc; simp at hc
  | cons x rest ihl =>
    intro hnd c hc hpc huniq
    simp only [List.nodup_cons] at hnd
    rw [List.countP_cons]
    rcases List.mem_cons.mp hc with hcx | hcx
    · subst hcx
      have hzero : rest.countP p = 0 := by
        rw [List.countP_eq_zero]
        intro b hb hpb
        have := huniq b (by simp [hb]) hpb
        subst this
        exact hnd.1 hb
      rw [hzero, hpc]
      simp
    · have hpx : p x = false := by
        cases hpx : p x with
        | false => rfl
        | true =>
          have := huniq x (by simp) hpx
          subst this
          exact absurd hcx hnd.1
      rw [ihl hnd.2 c hcx hpc (fun b hb hpb => huniq b (by simp [hb]) hpb), hpx]
      simp

theorem isCanonical_withChildren (node : ForkChoiceNode)
    (cs : List ForkChoiceNode) :
    (withChildren node cs).isCanonical = node.isCanonical := by
  cases node with
  | mk cs0 sl r w cn k => rfl

theorem canonFlip_false (cs : List ForkChoiceNode) : canonFlip false cs = cs := by
  match cs with
  | [] => rfl
  | [c] => simp [canonFlip]
  | c1 :: c2 :: rest => rfl

theorem noCanon_withChildren (node : ForkChoiceNode) (cs : List ForkChoiceNode)
    (hcn : node.isCanonical = false) (hcs : noCanonList cs = true) :
    noCanon (withChildren node cs) = true := by
  cases node with
  | mk cs0 sl r w cn k =>
    simp only [ForkChoiceNode.isCanonical] at hcn
    subst hcn
    simpa [withChildren, noCanon] using hcs

theorem canonPathTo_withChildren_end (node : ForkChoiceNode) (target : String)
    (hcn : node.isCanonical = true) (hr : node.root = target) :
    canonPathTo (withChildren node []) target = true := by
  cases node with
  | mk cs0 sl r w cn k =>
    simp only [ForkChoiceNode.isCanonical] at hcn
    simp only [ForkChoiceNode.root] at hr
    subst hcn
    simp [withChildren, canonPathTo, hr]

theorem canonPathTo_withChildren (node : ForkChoiceNode)
    (cs : List ForkChoiceNode) (target : String)
    (hcn : node.isCanonical = true) (hr : ¬ node.root = target)
    (hpath : pathChildren cs target = true) :
    canonPathTo (withChildren node cs) target = true := by
  cases node with
  | mk cs0 sl r w cn k =>
    simp only [ForkChoiceNode.isCanonical] at hcn
    simp only [ForkChoiceNode.root] at hr
    subst hcn
    simpa [withChildren, canonPathTo, hr] using hpath

theorem noCanonList_of_forall2 (pad : List ProtoArrayNode) (h : Nat)
    (target : String) (js : List Nat) (ts : List ForkChoiceNode)
    (hf : List.Forall₂ (fun j t => t.isCanonical = isAncestor pad j h ∧
      (isAncestor pad j h = true → canonPathTo t target = true) ∧
      (isAncestor pad j h = false → noCanon t = true)) js ts)
    (hall : ∀ j ∈ js, isAncestor pad j h = false) :
    noCanonList ts = true := by
  induction hf with
  | nil => rfl
  | cons hR hrest ihf =>
    rename_i j t js2 ts2
    have hj := hall j (by simp)
    simp only [noCanonList, Bool.and_eq_true]
    exact ⟨hR.2.2 hj, ihf (fun a ha => hall a (by simp [ha]))⟩

theorem pathChildren_of_forall2 (pad : List ProtoArrayNode) (h : Nat)
    (target : String) (js : List Nat) (ts : List ForkChoiceNode)
    (hf : List.Forall₂ (fun j t => t.isCanonical = isAncestor pad j h ∧
      (isAncestor pad j h = true → canonPathTo t target = true) ∧
      (isAncestor pad j h = false → noCanon t = true)) js ts)
    (hcount : js.countP (fun j => isAncestor pad j h) = 1) :
    pathChildren ts target = true := by
  induction hf with
  | nil => simp [List.countP_nil] at hcount
  | cons hR hrest ihf =>
    rename_i j t js2 ts2
    rw [List.countP_cons] at hcount
    cases hj : isAncestor pad j h with
    | true =>
      rw [hj] at hcount
      simp only [if_true, decide_True] at hcount
      have hzero : js2.countP (fun a => isAncestor pad a h) = 0 := by omega
      have hcan : t.isCanonical = true := by rw [hR.1, hj]
      simp only [pathChildren, hcan, if_true, Bool.and_eq_true]
      refine ⟨hR.2.1 hj, ?_⟩
      refine noCanonList_of_forall2 pad h target js2 ts2 hrest ?_
      intro a ha
      have := List.countP_eq_zero.mp hzero a ha
      simpa using this
    | false =>
      rw [hj] at hcount
      simp only [Bool.false_eq_true, if_false] at hcount
      have hcan : t.isCanonical = false := by rw [hR.1, hj]
      simp only [pathChildren, hcan, Bool.false_eq_true, if_false,
        Bool.and_eq_true]
      exact ⟨hR.2.2 hj, ihf (by omega)⟩

theorem pathChildren_single (t1 : ForkChoiceNode) (target : String)
    (hpath : pathChildren [t1] target = true) : t1.isCanonical = true := by
  by_contra hc
  simp only [Bool.not_eq_true] at hc
  simp [pathChildren, hc] at hpath

theorem canonFlip_pathChildren (b : Bool) (ts : List ForkChoiceNode)
    (target : String) (hpath : pathChildren ts target = true) :
    canonFlip b ts = ts := by
  match ts with
  | [] => rfl
  | [t1] =>
    have := pathChildren_single t1 target hpath
    simp [canonFlip, this]
  | t1 :: t2 :: ts3 => rfl

theorem buildTreeF_canon (pad : List ProtoArrayNode) (hI : Int) (h : Nat)
    (ci : List (String × List String)) (ns : List (String × ForkChoiceNode))
    (hwf : WellFormedInput pad) (hhc : HeadChainHyp pad hI h)
    (hci : ∀ i, i < pad.length → (mfind ci (rootAt pad i)).getD []
      = (childrenIdxList pad i).map (rootAt pad))
    (hns : ∀ i, i < pad.length →
      mfind ns (rootAt pad i) = some (protoToNode hI (entryAt pad i))) :
    ∀ (fuel i : Nat), i < pad.length → pad.length - i ≤ fuel →
    ∃ t, buildTreeF fuel (protoToNode hI (entryAt pad i)) ns ci = some t ∧
      t.isCanonical = isAncestor pad i h ∧
      (isAncestor pad i h = true → canonPathTo t (rootAt pad h) = true) ∧
      (isAncestor pad i h = false → noCanon t = true) := by
  have hflag : ∀ i, i < pad.length →
      ((entryAt pad i).bestDescendant == hI) = isAncestor pad i h := by
    intro i hi
    have hiff := hhc.2.2.1 i hi
    cases hanc : isAncestor pad i h with
    | true =>
      rw [hanc] at hiff
      simp only [beq_iff_eq]
      exact hiff.mpr rfl
    | false =>
      rw [hanc] at hiff
      simp only [beq_eq_false_iff_ne, ne_eq]
      intro he
      have := hiff.mp he
      simp at this
  intro fuel
  induction fuel with
  | zero => intro i hi hf; omega
  | succ f ihf =>
    intro i hi hf
    have hroot : (protoToNode hI (entryAt pad i)).root = rootAt pad i := rfl
    have hinner : ∀ js : List Nat,
        (∀ j ∈ js, j < pad.length ∧ pad.length - j ≤ f) →
        ∃ ts, buildChildrenWith (fun n => buildTreeF f n ns ci) ns
            (js.map (rootAt pad)) = some ts ∧
          List.Forall₂ (fun j t => t.isCanonical = isAncestor pad j h ∧
            (isAncestor pad j h = true → canonPathTo t (rootAt pad h) = true) ∧
            (isAncestor pad j h = false → noCanon t = true)) js ts := by
      intro js
      induction js with
      | nil => exact fun _ => ⟨[], rfl, List.Forall₂.nil⟩
      | cons j js ihjs =>
        intro hjs
        obtain ⟨hjlen, hjf⟩ := hjs j (by simp)
        obtain ⟨t, ht, hR⟩ := ihf j hjlen hjf
        obtain ⟨ts, hts, hRs⟩ := ihjs (fun a ha => hjs a (by simp [ha]))
        refine ⟨t :: ts, ?_, List.Forall₂.cons hR hRs⟩
        simp only [List.map_cons, buildChildrenWith]
        rw [hns j hjlen]
        simp only [Option.getD_some]
        rw [ht, hts]
    have hcond : ∀ j ∈ childrenIdxList pad i,
        j < pad.length ∧ pad.length - j ≤ f := by
      intro j hj
      obtain ⟨hgt, hlen⟩ := childrenIdx_gt pad hwf i j hj
      exact ⟨hlen, by omega⟩
    obtain ⟨ts, hts, hRs⟩ := hinner (childrenIdxList pad i) hcond
    have hchildanc : ∀ j ∈ childrenIdxList pad i, isAncestor pad i j = true := by
      intro j hj
      obtain ⟨hjlen, hp⟩ := (mem_childrenIdxList pad i j).mp hj
      have hgt := (childrenIdx_gt pad hwf i j hj).1
      have := anc_step_child pad j (i : Int) hp (by simpa using hgt)
      simpa using this
    have hcanon : (protoToNode hI (entryAt pad i)).isCanonical
        = isAncestor pad i h := hflag i hi
    refine ⟨withChildren (protoToNode hI (entryAt pad i))
      (canonFlip (protoToNode hI (entryAt pad i)).isCanonical
        ((protoToNode hI (entryAt pad i)).children ++ ts)), ?_, ?_, ?_, ?_⟩
    · simp only [buildTreeF]
      rw [hroot, hci i hi, hts]
    · rw [isCanonical_withChildren, hcanon]
    · intro hanc
      by_cases hih : i = h
      · have hjs : childrenIdxList pad i = [] := by rw [hih]; exact hhc.2.2.2
        rw [hjs] at hRs
        have hts0 : ts = [] := by cases hRs; rfl
        subst hts0
        exact canonPathTo_withChildren_end _ _ (by rw [hcanon, hanc])
          (by rw [hroot, hih])
      · obtain ⟨c, hclen, hcp, hcanc⟩ := anc_exists_child pad hwf i h hanc hih
        have hcmem : c ∈ childrenIdxList pad i :=
          (mem_childrenIdxList pad i c).mpr ⟨hclen, hcp⟩
        have huniq : ∀ b ∈ childrenIdxList pad i,
            isAncestor pad b h = true → b = c := by
          intro b hb hbanc
          by_contra hbc
          obtain ⟨hblen, hbp⟩ := (mem_childrenIdxList pad i b).mp hb
          exact anc_child_disjoint pad hwf i b c hbc hbp hcp h ⟨hbanc, hcanc⟩
        have hcount : (childrenIdxList pad i).countP
            (fun j => isAncestor pad j h) = 1 :=
          countP_eq_one_of_unique _ _ (childrenIdxList_nodup pad i) c hcmem
            hcanc huniq
        have hpath : pathChildren ts (rootAt pad h) = true :=
          pathChildren_of_forall2 pad h (rootAt pad h) _ ts hRs hcount
        have hT : canonFlip (protoToNode hI (entryAt pad i)).isCanonical
            ((protoToNode hI (entryAt pad i)).children ++ ts) = ts := by
          have h1 : (protoToNode hI (entryAt pad i)).children ++ ts = ts := rfl
          rw [h1]
          exact canonFlip_pathChildren _ ts _ hpath
        rw [hT]
        refine canonPathTo_withChildren _ ts _ (by rw [hcanon, hanc]) ?_ hpath
        rw [hroot]
        intro he
        exact hih (rootAt_inj pad hwf i h hi hhc.1 he)
    · intro hanc
      have hflip0 : (protoToNode hI (entryAt pad i)).isCanonical = false := by
        rw [hcanon, hanc]
      have hT : canonFlip (protoToNode hI (entryAt pad i)).isCanonical
          ((protoToNode hI (entryAt pad i)).children ++ ts) = ts := by
        have h1 : (protoToNode hI (entryAt pad i)).children ++ ts = ts := rfl
        rw [h1, hflip0, canonFlip_false]
      rw [hT]
      refine noCanon_withChildren _ ts hflip0 ?_
      refine noCanonList_of_forall2 pad h (rootAt pad h) _ ts hRs ?_
      intro j hj
      cases hjanc : isAncestor pad j h with
      | false => rfl
      | true =>
        exact absurd (isAncestor_trans pad i j h (hchildanc j hj) hjanc)
          (by rw [hanc]; simp)

/-- Claim C3 (counterexample): with a valid one-entry array (distinct
    roots, valid spanning structure) and supplied head index 5, no record
    has best_descendant equal to the head index, so NO node is marked
    canonical: the canonical-marked nodes do not form a path from the root
    to any leaf, and there is no record at index 5 at all. -/
theorem c3_counterexample :
    WellFormedInput exSoloPad ∧
    rollProtoArray exSoloPad 5 = some (.mk [] "0" "a" 0 false 0) ∧
    canonPathTo (.mk [] "0" "a" 0 false 0) "a" = false :=
  ⟨by decide, rfl, rfl⟩

/-- Claim C3 (amended): for every array satisfying the data-model invariant
    (non-empty, parents earlier with the unique parentless entry first,
    distinct roots) whose head entry h is childless and whose records carry
    best_descendant equal to the supplied head index exactly when they are
    ancestors (inclusive) of entry h, the canonical-marked nodes of the
    rollProtoArray output form a single contiguous path from the root to
    the leaf carrying entry h's block root. -/
theorem c3_amended (pad : List ProtoArrayNode) (hI : Int) (h : Nat)
    (hwf : WellFormedInput pad) (hhc : HeadChainHyp pad hI h) :
    ∃ t, rollProtoArray pad hI = some t ∧
      canonPathTo t (rootAt pad h) = true := by
  obtain ⟨p0, rest, rfl⟩ : ∃ p0 rest, pad = p0 :: rest := by
    cases pad with
    | nil => exact absurd hwf.1 (by simp)
    | cons p0 rest => exact ⟨p0, rest, rfl⟩
  obtain ⟨stout, hreg⟩ :=
    registerEntries_success (p0 :: rest) hI hwf (p0 :: rest) 0 ([], []) rfl
  obtain ⟨ci, ns⟩ := stout
  have hci := registerEntries_childrenIdx (p0 :: rest) hI hwf (p0 :: rest) 0
    ([], []) ci ns rfl (fun i _ => rfl) hreg
  have hns := registerEntries_nodes_final (p0 :: rest) hI ci ns hwf hreg
  obtain ⟨t, hbuild, _, hcanon, _⟩ :=
    buildTreeF_canon (p0 :: rest) hI h ci ns hwf hhc hci hns
      ((p0 :: rest).length + 1) 0 (by simp) (by omega)
  refine ⟨t, ?_, hcanon (anc_root (p0 :: rest) hwf h hhc.1)⟩
  unfold rollProtoArray
  rw [hreg]
  simp only
  have h0 : mfind ns p0.root = some (protoToNode hI (entryAt (p0 :: rest) 0)) :=
    hns 0 (by simp)
  rw [h0, Option.getD_some]
  exact hbuild

/-- Witness for c3_amended on the four-entry array (chain a-b-c with fork
    child d, head entry 2): the canonical nodes are exactly a, b, c. -/
theorem c3_amended_witness :
    WellFormedInput exChainPad ∧ HeadChainHyp exChainPad 2 2 ∧
    ∃ t, rollProtoArray exChainPad 2 = some t ∧
      canonPathTo t (rootAt exChainPad 2) = true :=
  ⟨by decide, by decide, c3_amended exChainPad 2 2 (by decide) (by decide)⟩
